import Mathlib

/-!
Verification of the CRISP MVIR object store (`crisp/mvir.py`) and its
memoization layer (`crisp/analysis.py`).

Conventions of the shallow embedding:
* Python `str` is modelled as `List Char` (Python string comparison is
  lexicographic on code points, which is the lexicographic order on the
  character list); `bytes` as `List Nat`.
* Python machine-level details (the `cbor` wire format and the SHA-256
  digest) live in external libraries, so they are kept abstract: theorems
  are parametrised by a serialiser `dumps : Cbor → List Nat` and a digest
  `digest : List Nat → NodeId`.  Everything proved uses only that both are
  functions, which is exactly what the source relies on for content
  addressing.
* Fallible Python code (raises) is modelled with `Except`/`Option`.
-/

set_option linter.unusedVariables false

/-- Python `str`, as its list of characters. -/
abbrev Str := List Char

/-- Shorthand to write a modelled Python string. -/
def str (s : String) : Str := s.data

/-- `NodeId` from `mvir.py`: a wrapper around the raw digest bytes.
(The Python class asserts `len(raw) == 32`; theorems that depend on the
length carry it as a hypothesis.) -/
structure NodeId where
  raw : List Nat
deriving DecidableEq

/-- The dynamic values that can appear in node metadata, i.e. the type
grammar accepted by `to_cbor` in `mvir.py`: `NoneType`, `bool`, `int`,
`str`, `bytes`, `list`/`tuple`, `dict`, `datetime`, and objects with a
`to_cbor` method (here: `NodeId`).  `float` is omitted (no node kind uses
it and floating point is outside the embedding). -/
inductive Value where
  | vnone
  | vbool (b : Bool)
  | vint (i : Int)
  | vstr (s : Str)
  | vbytes (bs : List Nat)
  | vid (id : NodeId)
  | vdatetime (year month day hour minute second microsecond : Int)
  | vlist (xs : List Value)
  | vdict (xs : List (Value × Value))

/-- Node metadata: a Python dict with `str` keys, in insertion order. -/
abbrev MetaDict := List (Str × Value)

/-- The CBOR-serialisable values produced by `to_cbor`: primitives, and
lists (Python lists and tuples both serialise as CBOR arrays). -/
inductive Cbor where
  | null
  | cbool (b : Bool)
  | cint (i : Int)
  | cstr (s : Str)
  | cbytes (bs : List Nat)
  | carr (xs : List Cbor)

/-- Lexicographic strict order on lists, as Python compares `str` and
`bytes` values with `<`. -/
def lexLt [DecidableEq α] (lt : α → α → Bool) : List α → List α → Bool
  | [], [] => false
  | [], _ :: _ => true
  | _ :: _, [] => false
  | a :: as, b :: bs => lt a b || (decide (a = b) && lexLt lt as bs)

/-- Constructor rank, used to order values of different types.  (Python
raises `TypeError` when `sorted` compares values of different types; dict
keys in CRISP metadata are always of a single type — in fact always
`str` — so the cross-type ordering is never exercised.  Making it total
keeps `to_cbor` a total function.) -/
def cborRank : Cbor → Nat
  | .null => 0
  | .cbool _ => 1
  | .cint _ => 2
  | .cstr _ => 3
  | .cbytes _ => 4
  | .carr _ => 5

/-- Boolean strict order on characters (Python compares code points). -/
def charLtB (c d : Char) : Bool := decide (c < d)

/-- Boolean strict order on bytes. -/
def natLtB (a b : Nat) : Bool := decide (a < b)

/-- The strict order used by `sorted(..., key=lambda x: x[0])` in
`to_cbor`, on already-encoded keys.  Same-type comparisons follow
Python `<` (`False < True`, numeric, lexicographic).  Lists never occur
as dict keys in metadata, so `carr` values are ordered only by rank. -/
def cborLt : Cbor → Cbor → Bool
  | .cbool a, .cbool b => !a && b
  | .cint a, .cint b => decide (a < b)
  | .cstr a, .cstr b => lexLt charLtB a b
  | .cbytes a, .cbytes b => lexLt natLtB a b
  | a, b => decide (cborRank a < cborRank b)

/-- Non-strict comparison on key/value pairs derived from `cborLt` on the
keys; this is the comparator under which a stable sort agrees with
Python's `sorted(..., key=lambda x: x[0])`. -/
def keyLe (p q : Cbor × Cbor) : Bool := !cborLt q.1 p.1

/-- Insert into a sorted list (the elementary step of a stable
insertion sort, kept structurally recursive so that proofs by `decide`
can evaluate it). -/
def orderedInsert (le : α → α → Bool) (a : α) : List α → List α
  | [] => [a]
  | b :: l => if le a b then a :: b :: l else b :: orderedInsert le a l

/-- Stable sort used to model Python's `sorted`. -/
def sortPairs (le : α → α → Bool) (l : List α) : List α :=
  l.foldr (orderedInsert le) []

mutual

/-- `to_cbor` from `mvir.py`: canonicalise a metadata value into a
CBOR-serialisable value.  Dicts become their `(key, value)` pairs, each
component encoded first, sorted by the encoded key (`sorted(((to_cbor(k),
to_cbor(v)) ...), key=lambda x: x[0])`); `datetime` becomes the 7-tuple of
its fields; `NodeId.to_cbor` returns the raw bytes. -/
def to_cbor : Value → Cbor
  | .vnone => .null
  | .vbool b => .cbool b
  | .vint i => .cint i
  | .vstr s => .cstr s
  | .vbytes bs => .cbytes bs
  | .vid id => .cbytes id.raw
  | .vdatetime y mo d h mi s us =>
      .carr [.cint y, .cint mo, .cint d, .cint h, .cint mi, .cint s, .cint us]
  | .vlist xs => .carr (to_cborList xs)
  | .vdict xs =>
      .carr ((sortPairs keyLe (to_cborPairs xs)).map (fun p => Cbor.carr [p.1, p.2]))

/-- Encode the elements of a Python list/tuple. -/
def to_cborList : List Value → List Cbor
  | [] => []
  | x :: xs => to_cbor x :: to_cborList xs

/-- Encode the `(key, value)` pairs of a Python dict, in insertion
order (the sort happens afterwards). -/
def to_cborPairs : List (Value × Value) → List (Cbor × Cbor)
  | [] => []
  | (k, v) :: xs => (to_cbor k, to_cbor v) :: to_cborPairs xs

end

/-- Canonical encoding of a node's metadata dict (`to_cbor(metadata)` with
a `str`-keyed dict, as in `Node._create`). -/
def metaToCbor (md : MetaDict) : Cbor :=
  to_cbor (.vdict (md.map (fun p => (Value.vstr p.1, p.2))))

/-- The NodeId computed by `Node._create`:
`sha256(cbor.dumps(to_cbor(metadata)) ++ body)`. -/
def nodeIdOf (dumps : Cbor → List Nat) (digest : List Nat → NodeId)
    (md : MetaDict) (body : List Nat) : NodeId :=
  digest (dumps (metaToCbor md) ++ body)

/-! ### Order-theoretic facts about the sort comparator -/

theorem charLtB_trans : ∀ x y z : Char,
    charLtB x y = true → charLtB y z = true → charLtB x z = true := by
  intro x y z h1 h2
  simp only [charLtB, decide_eq_true_eq] at h1 h2 ⊢
  exact lt_trans h1 h2

theorem charLtB_asymm : ∀ x y : Char,
    charLtB x y = true → charLtB y x = true → False := by
  intro x y h1 h2
  simp only [charLtB, decide_eq_true_eq] at h1 h2
  exact lt_asymm h1 h2

theorem charLtB_tricho : ∀ x y : Char,
    charLtB x y = true ∨ x = y ∨ charLtB y x = true := by
  intro x y
  simp only [charLtB, decide_eq_true_eq]
  exact lt_trichotomy x y

theorem natLtB_trans : ∀ x y z : Nat,
    natLtB x y = true → natLtB y z = true → natLtB x z = true := by
  intro x y z h1 h2
  simp only [natLtB, decide_eq_true_eq] at h1 h2 ⊢
  omega

theorem natLtB_asymm : ∀ x y : Nat,
    natLtB x y = true → natLtB y x = true → False := by
  intro x y h1 h2
  simp only [natLtB, decide_eq_true_eq] at h1 h2
  omega

theorem natLtB_tricho : ∀ x y : Nat,
    natLtB x y = true ∨ x = y ∨ natLtB y x = true := by
  intro x y
  simp only [natLtB, decide_eq_true_eq]
  omega

theorem lexLt_trans [DecidableEq α] (lt : α → α → Bool)
    (hts : ∀ x y z, lt x y = true → lt y z = true → lt x z = true) :
    ∀ xs ys zs, lexLt lt xs ys = true → lexLt lt ys zs = true → lexLt lt xs zs = true
  | [], [], _, h, _ => absurd h (by simp [lexLt])
  | [], _ :: _, [], _, h => absurd h (by simp [lexLt])
  | [], _ :: _, _ :: _, _, _ => by simp [lexLt]
  | _ :: _, [], _, h, _ => absurd h (by simp [lexLt])
  | _ :: _, _ :: _, [], _, h => absurd h (by simp [lexLt])
  | x :: xs, y :: ys, z :: zs, h1, h2 => by
      simp only [lexLt, Bool.or_eq_true, Bool.and_eq_true, decide_eq_true_eq] at h1 h2 ⊢
      rcases h1 with h1 | ⟨rfl, h1⟩
      · rcases h2 with h2 | ⟨rfl, h2⟩
        · exact Or.inl (hts _ _ _ h1 h2)
        · exact Or.inl h1
      · rcases h2 with h2 | ⟨rfl, h2⟩
        · exact Or.inl h2
        · exact Or.inr ⟨rfl, lexLt_trans lt hts xs ys zs h1 h2⟩

theorem lexLt_asymm [DecidableEq α] (lt : α → α → Bool)
    (hasym : ∀ x y, lt x y = true → lt y x = true → False) :
    ∀ xs ys, lexLt lt xs ys = true → lexLt lt ys xs = true → False
  | [], [], h, _ => by simp [lexLt] at h
  | [], _ :: _, _, h => by simp [lexLt] at h
  | _ :: _, [], h, _ => by simp [lexLt] at h
  | x :: xs, y :: ys, h1, h2 => by
      simp only [lexLt, Bool.or_eq_true, Bool.and_eq_true, decide_eq_true_eq] at h1 h2
      rcases h1 with h1 | ⟨rfl, h1⟩
      · rcases h2 with h2 | ⟨rfl, h2⟩
        · exact hasym _ _ h1 h2
        · exact hasym _ _ h1 h1
      · rcases h2 with h2 | ⟨_, h2⟩
        · exact hasym _ _ h2 h2
        · exact lexLt_asymm lt hasym xs ys h1 h2

theorem lexLt_tricho [DecidableEq α] (lt : α → α → Bool)
    (htri : ∀ x y, lt x y = true ∨ x = y ∨ lt y x = true) :
    ∀ xs ys, lexLt lt xs ys = true ∨ xs = ys ∨ lexLt lt ys xs = true
  | [], [] => Or.inr (Or.inl rfl)
  | [], _ :: _ => Or.inl (by simp [lexLt])
  | _ :: _, [] => Or.inr (Or.inr (by simp [lexLt]))
  | x :: xs, y :: ys => by
      rcases htri x y with h | rfl | h
      · exact Or.inl (by simp [lexLt, h])
      · rcases lexLt_tricho lt htri xs ys with h | rfl | h
        · exact Or.inl (by simp [lexLt, h])
        · exact Or.inr (Or.inl rfl)
        · exact Or.inr (Or.inr (by simp [lexLt, h]))
      · exact Or.inr (Or.inr (by simp [lexLt, h]))

theorem lexLt_cotrans [DecidableEq α] (lt : α → α → Bool)
    (hts : ∀ x y z, lt x y = true → lt y z = true → lt x z = true)
    (htri : ∀ x y, lt x y = true ∨ x = y ∨ lt y x = true) :
    ∀ xs ys zs, lexLt lt zs xs = true →
      lexLt lt zs ys = true ∨ lexLt lt ys xs = true := by
  intro xs ys zs h
  rcases lexLt_tricho lt htri zs ys with h' | rfl | h'
  · exact Or.inl h'
  · exact Or.inr h
  · exact Or.inr (lexLt_trans lt hts ys zs xs h' h)

theorem boolLt_cotrans : ∀ x y z : Bool,
    (!z && x) = true → (!z && y) = true ∨ (!y && x) = true := by decide

theorem boolLt_asymm : ∀ x y : Bool,
    (!x && y) = true → (!y && x) = true → False := by decide

theorem cborLt_asymm : ∀ a b : Cbor, cborLt a b = true → cborLt b a = true → False := by
  intro a b h1 h2
  cases a <;> cases b <;>
    simp only [cborLt, cborRank, decide_eq_true_eq] at h1 h2 <;>
    first
      | omega
      | exact boolLt_asymm _ _ h1 h2
      | exact lexLt_asymm charLtB charLtB_asymm _ _ h1 h2
      | exact lexLt_asymm natLtB natLtB_asymm _ _ h1 h2

theorem cborLt_cotrans : ∀ a b c : Cbor, cborLt c a = true →
    cborLt c b = true ∨ cborLt b a = true := by
  intro a b c h
  cases a <;> cases b <;> cases c <;>
    simp only [cborLt, cborRank, decide_eq_true_eq] at h ⊢ <;>
    first
      | omega
      | exact Or.inl (by omega)
      | exact Or.inr (by omega)
      | exact boolLt_cotrans _ _ _ h
      | exact lexLt_cotrans charLtB charLtB_trans charLtB_tricho _ _ _ h
      | exact lexLt_cotrans natLtB natLtB_trans natLtB_tricho _ _ _ h

theorem cborLt_negtrans : ∀ a b c : Cbor,
    cborLt b a = false → cborLt c b = false → cborLt c a = false := by
  intro a b c h1 h2
  cases h : cborLt c a with
  | false => rfl
  | true =>
      rcases cborLt_cotrans a b c h with h' | h'
      · rw [h'] at h2; exact Bool.noConfusion h2
      · rw [h'] at h1; exact Bool.noConfusion h1

theorem keyLe_trans : ∀ p q r : Cbor × Cbor,
    keyLe p q = true → keyLe q r = true → keyLe p r = true := by
  intro p q r h1 h2
  simp only [keyLe, Bool.not_eq_true'] at h1 h2 ⊢
  exact cborLt_negtrans _ _ _ h1 h2

theorem keyLe_total : ∀ p q : Cbor × Cbor, (keyLe p q || keyLe q p) = true := by
  intro p q
  cases h1 : cborLt q.1 p.1 with
  | false => simp [keyLe, h1]
  | true =>
      cases h2 : cborLt p.1 q.1 with
      | false => simp [keyLe, h2]
      | true => exact (cborLt_asymm _ _ h1 h2).elim

/-! ### Correctness of the stable sort -/

theorem orderedInsert_perm (le : α → α → Bool) (a : α) :
    ∀ l : List α, (orderedInsert le a l).Perm (a :: l)
  | [] => List.Perm.refl _
  | b :: l => by
      by_cases h : le a b = true
      · simp [orderedInsert, h]
      · simp only [orderedInsert, h, if_false]
        exact ((orderedInsert_perm le a l).cons b).trans (List.Perm.swap a b l)

theorem sortPairs_perm (le : α → α → Bool) :
    ∀ l : List α, (sortPairs le l).Perm l
  | [] => List.Perm.refl _
  | x :: l =>
      (orderedInsert_perm le x (sortPairs le l)).trans ((sortPairs_perm le l).cons x)

theorem mem_of_mem_orderedInsert (le : α → α → Bool) (a : α) (l : List α) (x : α)
    (hx : x ∈ orderedInsert le a l) : x = a ∨ x ∈ l := by
  have h := (orderedInsert_perm le a l).mem_iff.mp hx
  simpa using h

theorem orderedInsert_sorted (le : α → α → Bool)
    (htrans : ∀ a b c, le a b = true → le b c = true → le a c = true)
    (htotal : ∀ a b, (le a b || le b a) = true) (a : α) :
    ∀ l : List α, l.Pairwise (fun x y => le x y = true) →
      (orderedInsert le a l).Pairwise (fun x y => le x y = true)
  | [], _ => by simp [orderedInsert]
  | b :: l, h => by
      rcases List.pairwise_cons.mp h with ⟨hb, hl⟩
      by_cases hab : le a b = true
      · simp only [orderedInsert, hab, if_true]
        refine List.pairwise_cons.mpr ⟨?_, h⟩
        intro x hx
        rcases List.mem_cons.mp hx with rfl | hx
        · exact hab
        · exact htrans _ _ _ hab (hb x hx)
      · simp only [orderedInsert, hab, if_false]
        refine List.pairwise_cons.mpr ⟨?_, orderedInsert_sorted le htrans htotal a l hl⟩
        intro y hy
        rcases mem_of_mem_orderedInsert le a l y hy with rfl | hy
        · have hab' : le y b = false := by
            cases hle : le y b with
            | true => exact absurd hle hab
            | false => rfl
          have htot := htotal y b
          rw [hab'] at htot
          simpa using htot
        · exact hb y hy

theorem sortPairs_sorted (le : α → α → Bool)
    (htrans : ∀ a b c, le a b = true → le b c = true → le a c = true)
    (htotal : ∀ a b, (le a b || le b a) = true) :
    ∀ l : List α, (sortPairs le l).Pairwise (fun x y => le x y = true)
  | [] => List.Pairwise.nil
  | x :: l =>
      orderedInsert_sorted le htrans htotal x (sortPairs le l)
        (sortPairs_sorted le htrans htotal l)

/-! ### C2: canonical ordering of metadata maps -/

theorem to_cborPairs_eq_map : ∀ l : List (Value × Value),
    to_cborPairs l = l.map (fun p => (to_cbor p.1, to_cbor p.2))
  | [] => rfl
  | (k, v) :: xs => by simp [to_cborPairs, to_cborPairs_eq_map xs]

theorem cstr_injective : Function.Injective Cbor.cstr := by
  intro a b h
  injection h

theorem sorted_strict_of_keyLe (l : List (Cbor × Cbor))
    (hsorted : l.Pairwise (fun p q => keyLe p q = true))
    (hstr : ∀ p ∈ l, ∃ s, p.1 = Cbor.cstr s)
    (hnd : (l.map Prod.fst).Nodup) :
    l.Pairwise (fun p q => cborLt p.1 q.1 = true) := by
  have hne : l.Pairwise (fun p q => p.1 ≠ q.1) := List.pairwise_map.mp hnd
  refine (hsorted.and hne).imp_of_mem ?_
  intro p q hp hq hpq
  obtain ⟨hle, hne'⟩ := hpq
  obtain ⟨s, hs⟩ := hstr p hp
  obtain ⟨t, ht⟩ := hstr q hq
  rw [hs, ht]
  rcases lexLt_tricho charLtB charLtB_tricho s t with h | rfl | h
  · simpa [cborLt] using h
  · exact absurd (hs.trans ht.symm) hne'
  · exfalso
    simp only [keyLe, hs, ht, cborLt, Bool.not_eq_true'] at hle
    rw [h] at hle
    exact Bool.noConfusion hle

theorem sortPairs_keyLe_eq_of_perm (l1 l2 : List (Cbor × Cbor))
    (hperm : l1.Perm l2)
    (hstr : ∀ p ∈ l1, ∃ s, p.1 = Cbor.cstr s)
    (hnd : (l1.map Prod.fst).Nodup) :
    sortPairs keyLe l1 = sortPairs keyLe l2 := by
  have e1p : (sortPairs keyLe l1).Perm l1 := sortPairs_perm keyLe l1
  have e2p : (sortPairs keyLe l2).Perm l2 := sortPairs_perm keyLe l2
  have hpp : (sortPairs keyLe l1).Perm (sortPairs keyLe l2) :=
    (e1p.trans hperm).trans e2p.symm
  have s1 := sorted_strict_of_keyLe _
    (sortPairs_sorted keyLe keyLe_trans keyLe_total l1)
    (fun p hp => hstr p (e1p.mem_iff.mp hp))
    ((e1p.map Prod.fst).nodup_iff.mpr hnd)
  have hnd2 : (l2.map Prod.fst).Nodup := ((hperm.map Prod.fst).nodup_iff).mp hnd
  have s2 := sorted_strict_of_keyLe _
    (sortPairs_sorted keyLe keyLe_trans keyLe_total l2)
    (fun p hp => hstr p (hperm.mem_iff.mpr (e2p.mem_iff.mp hp)))
    ((e2p.map Prod.fst).nodup_iff.mpr hnd2)
  haveI : IsAntisymm (Cbor × Cbor) (fun p q => cborLt p.1 q.1 = true) :=
    ⟨fun p q h1 h2 => (cborLt_asymm _ _ h1 h2).elim⟩
  exact List.eq_of_perm_of_sorted hpp s1 s2

/-- C2: two metadata dicts holding the same key/value pairs in different
insertion orders canonically encode to identical `Cbor` values, hence to
identical serialised bytes and identical NodeIds; and every map-typed value
is serialised as the list of its (key, value) pairs sorted by the canonical
encoding of the key. -/
theorem canonical_ordering
    (dumps : Cbor → List Nat) (digest : List Nat → NodeId) (body : List Nat)
    (md1 md2 : MetaDict) (hperm : md1.Perm md2)
    (hnd : (md1.map Prod.fst).Nodup) :
    metaToCbor md1 = metaToCbor md2 ∧
    dumps (metaToCbor md1) = dumps (metaToCbor md2) ∧
    nodeIdOf dumps digest md1 body = nodeIdOf dumps digest md2 body ∧
    ∀ xs : List (Value × Value),
      to_cbor (.vdict xs) =
        .carr ((sortPairs keyLe (to_cborPairs xs)).map (fun p => Cbor.carr [p.1, p.2])) ∧
      (sortPairs keyLe (to_cborPairs xs)).Perm (to_cborPairs xs) ∧
      (sortPairs keyLe (to_cborPairs xs)).Pairwise (fun p q => keyLe p q = true) := by
  have key : sortPairs keyLe (to_cborPairs (md1.map (fun p => (Value.vstr p.1, p.2)))) =
      sortPairs keyLe (to_cborPairs (md2.map (fun p => (Value.vstr p.1, p.2)))) := by
    apply sortPairs_keyLe_eq_of_perm
    · rw [to_cborPairs_eq_map, to_cborPairs_eq_map]
      exact (hperm.map _).map _
    · intro p hp
      rw [to_cborPairs_eq_map] at hp
      simp only [List.mem_map] at hp
      obtain ⟨q, hq, rfl⟩ := hp
      obtain ⟨r, hr, rfl⟩ := hq
      exact ⟨r.1, rfl⟩
    · have hmap : (to_cborPairs (md1.map (fun p => (Value.vstr p.1, p.2)))).map Prod.fst =
          (md1.map Prod.fst).map Cbor.cstr := by
        rw [to_cborPairs_eq_map, List.map_map, List.map_map, List.map_map]
        rfl
      rw [hmap]
      exact hnd.map cstr_injective
  have henc : metaToCbor md1 = metaToCbor md2 := by
    simp only [metaToCbor, to_cbor]
    rw [key]
  refine ⟨henc, by rw [henc], by unfold nodeIdOf; rw [henc], ?_⟩
  intro xs
  exact ⟨rfl, sortPairs_perm keyLe _,
    sortPairs_sorted keyLe keyLe_trans keyLe_total _⟩

/-- Witness for `canonical_ordering`: two concrete two-entry dicts in
opposite insertion orders. -/
theorem canonical_ordering_witness :
    ([(str "b", Value.vint 2), (str "a", Value.vint 1)] : MetaDict).Perm
      [(str "a", Value.vint 1), (str "b", Value.vint 2)] ∧
    (([(str "b", Value.vint 2), (str "a", Value.vint 1)] : MetaDict).map Prod.fst).Nodup ∧
    metaToCbor [(str "b", Value.vint 2), (str "a", Value.vint 1)] =
      metaToCbor [(str "a", Value.vint 1), (str "b", Value.vint 2)] :=
  ⟨List.Perm.swap _ _ _, by decide,
   (canonical_ordering (fun _ => []) (fun _ => NodeId.mk []) []
      [(str "b", Value.vint 2), (str "a", Value.vint 1)]
      [(str "a", Value.vint 1), (str "b", Value.vint 2)]
      (List.Perm.swap _ _ _) (by decide)).1⟩

/-! ### Declared field types and metadata validation -/

/-- Declared metadata field types: the `Metadata[T]` annotations that occur
on node classes in `mvir.py` (`str`, `int`, `NodeId`, `list[T]`,
`dict[K, V]`, `Optional[T] = Union[T, NoneType]`, plus the remaining
primitives supported by `check_type`). -/
inductive FieldTy where
  | tnone
  | tbool
  | tint
  | tstr
  | tbytes
  | tid
  | tlist (t : FieldTy)
  | tdict (kt vt : FieldTy)
  | tunion (ts : List FieldTy)

instance : Inhabited FieldTy := ⟨.tnone⟩

instance : Inhabited Value := ⟨.vnone⟩

instance : Inhabited Cbor := ⟨.null⟩

mutual

/-- `check_type` from `mvir.py`.  Primitive branches model
`assert isinstance(x, ty)` (Python's `bool` is a subclass of `int`, so an
`int` annotation also accepts a boolean); a raised
`AssertionError`/`TypeError` is modelled as `false`.  The `Union` branch
mirrors the source: each variant is tried in order, a success returns
immediately, and the exception of a failing variant is caught — when every
variant fails, the `for` loop is exhausted and the function returns
without raising, so the value is accepted (see `check_type_union`). -/
def check_type : FieldTy → Value → Bool
  | .tnone, v => match v with | .vnone => true | _ => false
  | .tbool, v => match v with | .vbool _ => true | _ => false
  | .tint, v => match v with | .vint _ => true | .vbool _ => true | _ => false
  | .tstr, v => match v with | .vstr _ => true | _ => false
  | .tbytes, v => match v with | .vbytes _ => true | _ => false
  | .tid, v => match v with | .vid _ => true | _ => false
  | .tlist t, v => match v with
      | .vlist xs => xs.all (fun y => check_type t y)
      | _ => false
  | .tdict kt vt, v => match v with
      | .vdict xs => xs.all (fun p => check_type kt p.1 && check_type vt p.2)
      | _ => false
  | .tunion ts, v => check_type_union ts v

/-- The `Union` loop of `check_type`: when the variant list is exhausted
without a success, control falls out of the `for` and `check_type`
returns `None` — acceptance — because no final `raise` follows the
loop. -/
def check_type_union : List FieldTy → Value → Bool
  | [], _ => true
  | t :: ts, v => if check_type t v then true else check_type_union ts v

end

mutual

/-- `from_cbor` from `mvir.py`: decode a raw CBOR value against a declared
field type; an uncaught `AssertionError`/`TypeError` is `none`.  Faithful
details: an `int` annotation accepts a boolean (subclass); dicts are
serialised as lists of two-element sequences; `NodeId.from_cbor` rebuilds
the id from raw bytes, whose constructor asserts the 32-byte length. -/
def from_cbor : FieldTy → Cbor → Option Value
  | .tnone, x => match x with | .null => some .vnone | _ => none
  | .tbool, x => match x with | .cbool b => some (.vbool b) | _ => none
  | .tint, x => match x with
      | .cint i => some (.vint i)
      | .cbool b => some (.vbool b)
      | _ => none
  | .tstr, x => match x with | .cstr s => some (.vstr s) | _ => none
  | .tbytes, x => match x with | .cbytes bs => some (.vbytes bs) | _ => none
  | .tid, x => match x with
      | .cbytes bs => if bs.length = 32 then some (.vid ⟨bs⟩) else none
      | _ => none
  | .tlist t, x => match x with
      | .carr xs => (xs.mapM (fun y => from_cbor t y)).map Value.vlist
      | _ => none
  | .tdict kt vt, x => match x with
      | .carr xs =>
          (xs.mapM (fun p => (match p with
            | .carr [k, v] =>
                match from_cbor kt k, from_cbor vt v with
                | some k', some v' => some (k', v')
                | _, _ => none
            | _ => none : Option (Value × Value)))).map Value.vdict
      | _ => none
  | .tunion ts, x => some (from_cbor_union ts x)

/-- The `Union` loop of `from_cbor`: variants are tried in order and the
first successful decode is returned; when every variant raises
(caught `TypeError`/`AssertionError`), the loop falls through and the
function implicitly returns Python `None`, so decoding yields the value
`None` instead of an error. -/
def from_cbor_union : List FieldTy → Cbor → Value
  | [], _ => .vnone
  | t :: ts, x =>
      match from_cbor t x with
      | some v => v
      | none => from_cbor_union ts x

end

/-- Errors raised by metadata validation (`Node._check_metadata` and
`TreeNode._check_metadata`); each constructor carries the data the raised
exception's message names. -/
inductive MetaErr where
  | missingAndUnexpected (missing unexpected : List Str)
  | missingKeys (missing : List Str)
  | unexpectedKeys (unexpected : List Str)
  | fieldTypeError (field : Str)
  | filesNotDict
  | filesKeyNotStr
  | filesValueNotId
deriving DecidableEq

/-- Keys of a metadata dict, in insertion order. -/
def keysOf (md : MetaDict) : List Str := md.map Prod.fst

/-- Python's `metadata.keys() == field_tys.keys()`: equality of the two key
views as sets. -/
def keySetEq (ks declared : List Str) : Bool :=
  declared.all (fun k => ks.contains k) && ks.all (fun k => declared.contains k)

/-- `Node._check_metadata`: the key set must equal the declared field set
exactly — a `ValueError` names the missing and/or unexpected keys — and
each value must pass `check_type` against the declared type of its field
(the first failure is re-raised after printing the field name). -/
def Node.check_metadata (fields : List (Str × FieldTy)) (md : MetaDict) :
    Except MetaErr Unit :=
  let declared := fields.map Prod.fst
  let ks := keysOf md
  if keySetEq ks declared then
    match md.find? (fun p => !(check_type ((fields.lookup p.1).getD .tnone) p.2)) with
    | some p => .error (.fieldTypeError p.1)
    | none => .ok ()
  else
    let missing := declared.filter (fun k => !(ks.contains k))
    let unexpected := ks.filter (fun k => !(declared.contains k))
    if missing ≠ [] then
      if unexpected ≠ [] then .error (.missingAndUnexpected missing unexpected)
      else .error (.missingKeys missing)
    else .error (.unexpectedKeys unexpected)

/-- Errors that abort `Node._metadata_from_cbor`. -/
inductive LoadMetaErr where
  | duplicateName (name : Str)
  | keyError (name : Str)
  | decodeError (name : Str)
  | keysMismatch
deriving DecidableEq

/-- The loop of `Node._metadata_from_cbor`, with the metadata built so far
in `acc`: a repeated name trips `assert name not in metadata`; a name
with no declared type raises `KeyError` at `field_tys[name]`; the value is
decoded by `from_cbor` (an uncaught failure aborts the load); at the end,
`assert metadata.keys() == field_tys.keys()` rejects missing keys. -/
def Node.metadata_from_cbor_loop (fields : List (Str × FieldTy)) :
    List (Str × Cbor) → MetaDict → Except LoadMetaErr MetaDict
  | [], acc =>
      if keySetEq (keysOf acc) (fields.map Prod.fst) then .ok acc
      else .error .keysMismatch
  | (name, value) :: rest, acc =>
      if (keysOf acc).contains name then .error (.duplicateName name)
      else
        match fields.lookup name with
        | none => .error (.keyError name)
        | some ty =>
            match from_cbor ty value with
            | none => .error (.decodeError name)
            | some v => Node.metadata_from_cbor_loop fields rest (acc ++ [(name, v)])

/-- `Node._metadata_from_cbor` applied to the raw metadata dict read from
a node file. -/
def Node.metadata_from_cbor (fields : List (Str × FieldTy))
    (dct : List (Str × Cbor)) : Except LoadMetaErr MetaDict :=
  Node.metadata_from_cbor_loop fields dct []

/-- Python `isinstance(v, str)` on a metadata value. -/
def isStrV : Value → Bool
  | .vstr _ => true
  | _ => false

/-- Python `isinstance(v, NodeId)` on a metadata value. -/
def isIdV : Value → Bool
  | .vid _ => true
  | _ => false

/-- Declared metadata fields of `FileNode` (only the inherited `kind`). -/
def fileFields : List (Str × FieldTy) := [(str "kind", .tstr)]

/-- Declared metadata fields of `TreeNode`. -/
def treeFields : List (Str × FieldTy) :=
  [(str "kind", .tstr), (str "files", .tdict .tstr .tid)]

/-- Declared metadata fields of `CompileCommandsOpNode`
(`compile_commands: Optional[NodeId]` is `Union[NodeId, NoneType]`). -/
def compileCommandsOpV2Fields : List (Str × FieldTy) :=
  [(str "kind", .tstr), (str "c_code", .tid),
   (str "cmds", .tlist (.tlist .tstr)), (str "exit_code", .tint),
   (str "compile_commands", .tunion [.tid, .tnone])]

/-- `TreeNode._check_metadata`: the base check, then `files` must be a
dict whose keys are `str` and whose values are `NodeId` — each pair is
checked key first, then value, and the first offender raises
`TypeError`.  Nothing about the path strings themselves (absoluteness,
normalisation) is inspected. -/
def TreeNode.check_metadata (md : MetaDict) : Except MetaErr Unit := do
  Node.check_metadata treeFields md
  match md.lookup (str "files") with
  | some (.vdict xs) =>
      match xs.find? (fun p => !(isStrV p.1 && isIdV p.2)) with
      | some p => if isStrV p.1 then .error .filesValueNotId else .error .filesKeyNotStr
      | none => .ok ()
  | some _ => .error .filesNotDict
  | none => .error .filesNotDict

/-! ### C6, C8, C9: schema validation at construction and load time -/

/-- The missing keys named by a metadata validation error. -/
def MetaErr.named_missing : MetaErr → List Str
  | .missingAndUnexpected m _ => m
  | .missingKeys m => m
  | _ => []

/-- The unexpected keys named by a metadata validation error. -/
def MetaErr.named_unexpected : MetaErr → List Str
  | .missingAndUnexpected _ u => u
  | .unexpectedKeys u => u
  | _ => []

theorem check_metadata_names_keys (fields : List (Str × FieldTy)) (md : MetaDict)
    (hne : keySetEq (keysOf md) (fields.map Prod.fst) = false) :
    ∃ e, Node.check_metadata fields md = .error e ∧
      e.named_missing = (fields.map Prod.fst).filter (fun k => !((keysOf md).contains k)) ∧
      e.named_unexpected = (keysOf md).filter (fun k => !((fields.map Prod.fst).contains k)) := by
  simp only [Node.check_metadata]
  rw [if_neg (by simp [hne])]
  by_cases hm0 : (fields.map Prod.fst).filter (fun k => !((keysOf md).contains k)) = []
  · rw [if_neg (not_not_intro hm0)]
    exact ⟨_, rfl, hm0.symm, rfl⟩
  · rw [if_pos hm0]
    by_cases hu0 : (keysOf md).filter (fun k => !((fields.map Prod.fst).contains k)) = []
    · rw [if_neg (not_not_intro hu0)]
      exact ⟨_, rfl, rfl, hu0.symm⟩
    · rw [if_pos hu0]
      exact ⟨_, rfl, rfl, rfl⟩

theorem metadata_from_cbor_loop_ok (fields : List (Str × FieldTy)) :
    ∀ (dct : List (Str × Cbor)) (acc md' : MetaDict),
      Node.metadata_from_cbor_loop fields dct acc = .ok md' →
      keySetEq (keysOf md') (fields.map Prod.fst) = true ∧
      keysOf md' = keysOf acc ++ dct.map Prod.fst
  | [], acc, md', h => by
      unfold Node.metadata_from_cbor_loop at h
      split at h
      · cases h
        next hk => exact ⟨hk, by simp⟩
      · exact Except.noConfusion h
  | (name, value) :: rest, acc, md', h => by
      unfold Node.metadata_from_cbor_loop at h
      split at h
      · exact Except.noConfusion h
      · split at h
        · exact Except.noConfusion h
        · split at h
          · exact Except.noConfusion h
          · next v hf =>
              obtain ⟨h1, h2⟩ :=
                metadata_from_cbor_loop_ok fields rest (acc ++ [(name, v)]) md' h
              refine ⟨h1, ?_⟩
              rw [h2]
              simp [keysOf]

/-- C6: metadata must match the declared field set exactly.  At
construction, a metadata dict whose keys differ from the declared key set
makes `Node._check_metadata` raise an error naming precisely the missing
and the unexpected keys; at load time, `Node._metadata_from_cbor` succeeds
only when the stored keys equal the declared set, and fails otherwise. -/
theorem metadata_exact_field_set (fields : List (Str × FieldTy)) (md : MetaDict)
    (dct : List (Str × Cbor))
    (hne : keySetEq (keysOf md) (fields.map Prod.fst) = false) :
    (∃ e, Node.check_metadata fields md = .error e ∧
      (∀ k, k ∈ e.named_missing ↔ (k ∈ fields.map Prod.fst ∧ ¬ k ∈ keysOf md)) ∧
      (∀ k, k ∈ e.named_unexpected ↔ (k ∈ keysOf md ∧ ¬ k ∈ fields.map Prod.fst))) ∧
    (∀ md', Node.metadata_from_cbor fields dct = .ok md' →
      keySetEq (dct.map Prod.fst) (fields.map Prod.fst) = true) ∧
    (keySetEq (dct.map Prod.fst) (fields.map Prod.fst) = false →
      ∃ e, Node.metadata_from_cbor fields dct = .error e) := by
  refine ⟨?_, ?_, ?_⟩
  · obtain ⟨e, he, hm, hu⟩ := check_metadata_names_keys fields md hne
    refine ⟨e, he, ?_, ?_⟩
    · intro k
      rw [hm]
      simp [List.mem_filter]
    · intro k
      rw [hu]
      simp [List.mem_filter]
  · intro md' h
    obtain ⟨h1, h2⟩ := metadata_from_cbor_loop_ok fields dct [] md' h
    rw [h2] at h1
    simpa [keysOf] using h1
  · intro hne'
    cases hr : Node.metadata_from_cbor fields dct with
    | ok md' =>
        obtain ⟨h1, h2⟩ := metadata_from_cbor_loop_ok fields dct [] md' hr
        rw [h2] at h1
        simp only [keysOf, List.map_nil, List.nil_append] at h1
        rw [h1] at hne'
        exact Bool.noConfusion hne'
    | error e => exact ⟨e, rfl⟩

/-- Witness for `metadata_exact_field_set`: a `tree` metadata dict missing
`files` and carrying a stray `extra` key, and a stored dict missing
`files`. -/
theorem metadata_exact_field_set_witness :
    keySetEq (keysOf [(str "kind", Value.vstr (str "tree")), (str "extra", Value.vint 0)])
      (treeFields.map Prod.fst) = false ∧
    (∃ e, Node.check_metadata treeFields
        [(str "kind", Value.vstr (str "tree")), (str "extra", Value.vint 0)] = .error e ∧
      (∀ k, k ∈ e.named_missing ↔
        (k ∈ treeFields.map Prod.fst ∧
          ¬ k ∈ keysOf [(str "kind", Value.vstr (str "tree")), (str "extra", Value.vint 0)])) ∧
      (∀ k, k ∈ e.named_unexpected ↔
        (k ∈ keysOf [(str "kind", Value.vstr (str "tree")), (str "extra", Value.vint 0)] ∧
          ¬ k ∈ treeFields.map Prod.fst))) ∧
    (keySetEq ([(str "kind", Cbor.cstr (str "tree"))].map Prod.fst)
        (treeFields.map Prod.fst) = false →
      ∃ e, Node.metadata_from_cbor treeFields [(str "kind", Cbor.cstr (str "tree"))] = .error e) :=
  ⟨by decide,
   (metadata_exact_field_set treeFields _ [(str "kind", Cbor.cstr (str "tree"))] (by decide)).1,
   (metadata_exact_field_set treeFields
      [(str "kind", Value.vstr (str "tree")), (str "extra", Value.vint 0)]
      [(str "kind", Cbor.cstr (str "tree"))] (by decide)).2.2⟩

/-- C8 (bug exhibit): `check_type` on a `Union`-typed field accepts a value
that matches no variant, because the variant loop catches every failure and
then falls through without raising.  Constructing a `CompileCommandsOpNode`
whose `compile_commands: Optional[NodeId]` holds the integer `5` therefore
passes validation, even though a plain `NodeId`- or `NoneType`-typed field
rejects the same value; `from_cbor` has the same fallthrough and silently
decodes an unmatched `Union` value to `None`. -/
theorem union_check_fallthrough :
    check_type (.tunion [.tid, .tnone]) (.vint 5) = true ∧
    check_type .tid (.vint 5) = false ∧
    check_type .tnone (.vint 5) = false ∧
    Node.check_metadata compileCommandsOpV2Fields
      [(str "kind", .vstr (str "compile_commands_op_v2")),
       (str "c_code", .vid ⟨[0]⟩),
       (str "cmds", .vlist []),
       (str "exit_code", .vint 0),
       (str "compile_commands", .vint 5)] = .ok () ∧
    from_cbor (.tunion [.tid, .tnone]) (.cint 7) = some .vnone :=
  ⟨rfl, rfl, rfl, rfl, rfl⟩

/-- C9 counterexample: `TreeNode._check_metadata` accepts a `files` map
whose key is the absolute, non-normalised path `"/abs/../x.rs"`;
constructing such a `TreeNode` raises no error at all. -/
theorem tree_path_not_validated :
    TreeNode.check_metadata
      [(str "kind", .vstr (str "tree")),
       (str "files", .vdict [(.vstr (str "/abs/../x.rs"), .vid ⟨[1]⟩)])] = .ok () ∧
    (str "/abs/../x.rs").take 1 = [('/' : Char)] :=
  ⟨rfl, rfl⟩

theorem tree_files_all_pairs_ok (ps : List (Str × NodeId)) :
    check_type (.tdict .tstr .tid)
      (.vdict (ps.map (fun p => (Value.vstr p.1, Value.vid p.2)))) = true := by
  simp only [check_type]
  rw [List.all_eq_true]
  intro p hp
  obtain ⟨q, hq, rfl⟩ := List.mem_map.mp hp
  rfl

theorem tree_files_find_none (ps : List (Str × NodeId)) :
    (ps.map (fun p => (Value.vstr p.1, Value.vid p.2))).find?
      (fun p => !(isStrV p.1 && isIdV p.2)) = none := by
  induction ps with
  | nil => rfl
  | cons p ps ih =>
      rw [List.map_cons, List.find?_cons_of_neg _ (by simp [isStrV, isIdV])]
      exact ih

/-- C9 amended: `TreeNode._check_metadata` enforces only the shape of the
`files` map — string keys and `NodeId` values, with a hard error
otherwise — and accepts every list of string keys, absolute or
non-normalised paths included; key uniqueness is inherent to the Python
dict, and no path normalisation check exists. -/
theorem tree_files_shape_only :
    (∀ ps : List (Str × NodeId),
      TreeNode.check_metadata
        [(str "kind", .vstr (str "tree")),
         (str "files", .vdict (ps.map (fun p => (Value.vstr p.1, Value.vid p.2))))] = .ok ()) ∧
    TreeNode.check_metadata
      [(str "kind", .vstr (str "tree")),
       (str "files", .vdict [(.vint 3, .vid ⟨[1]⟩)])] =
      .error (.fieldTypeError (str "files")) ∧
    TreeNode.check_metadata
      [(str "kind", .vstr (str "tree")),
       (str "files", .vdict [(.vstr (str "a.rs"), .vint 3)])] =
      .error (.fieldTypeError (str "files")) := by
  refine ⟨?_, rfl, rfl⟩
  intro ps
  have hkeys : keysOf [(str "kind", Value.vstr (str "tree")),
      (str "files", Value.vdict (ps.map (fun p => (Value.vstr p.1, Value.vid p.2))))] =
      [str "kind", str "files"] := rfl
  have hlook : (List.lookup (str "files") treeFields).getD FieldTy.tnone =
      FieldTy.tdict .tstr .tid := rfl
  have hbase : Node.check_metadata treeFields
      [(str "kind", .vstr (str "tree")),
       (str "files", .vdict (ps.map (fun p => (Value.vstr p.1, Value.vid p.2))))] = .ok () := by
    simp only [Node.check_metadata]
    rw [if_pos (by rw [hkeys]; decide)]
    rw [List.find?_cons_of_neg _ (by decide),
        List.find?_cons_of_neg _ (by
          rw [Bool.not_eq_true, Bool.not_eq_false']
          exact hlook ▸ tree_files_all_pairs_ok ps),
        List.find?_nil]
  simp only [TreeNode.check_metadata, hbase]
  rw [show List.lookup (str "files")
      [(str "kind", Value.vstr (str "tree")),
       (str "files", Value.vdict (ps.map (fun p => (Value.vstr p.1, Value.vid p.2))))] =
      some (Value.vdict (ps.map (fun p => (Value.vstr p.1, Value.vid p.2)))) from rfl]
  simp only [tree_files_find_none ps]
  rfl

/-! ### The on-disk store, stamps, and the reverse index (C1, C3) -/

/-- `IndexEntry` from `mvir.py`: `(source NodeId, source kind, field key)`,
recorded under the target id's shard. -/
structure IndexEntry where
  node_id : NodeId
  kind : Str
  key : Str
deriving DecidableEq

/-- A node file on disk: its id (which determines the sharded path
`nodes/<b0>/<rest>`), the metadata, the body bytes, and the file's
mtime. -/
structure NodeFile where
  nid : NodeId
  meta : MetaDict
  body : List Nat
  mtime : Nat

/-- The parts of an `MVIR` store the claims touch: node files on disk, the
in-process `_nodes` cache (a `WeakValueDictionary`; only id membership
matters here), the index shards (modelled as one append-only list of
(target, entry) records — entries of one shard keep their append order in
the sublist for that target), and the two stamp files.  `stampIndex`
carries the stamp's mtime and content (the node ids processed by the last
index update); `stampNodes` carries its mtime.  Shard-directory mtimes
are derived (`dirMtime`). -/
structure Store where
  nodes : List NodeFile
  cache : List NodeId
  index : List (NodeId × IndexEntry)
  stampIndex : Option (Nat × List NodeId)
  stampNodes : Option Nat

/-- A freshly initialised store: no nodes, no index, no stamps. -/
def emptyStore : Store := ⟨[], [], [], none, none⟩

/-- `node.kind`, i.e. `metadata()['kind']` (a string on every stored
node). -/
def metaKind (md : MetaDict) : Str :=
  match md.lookup (str "kind") with
  | some (.vstr s) => s
  | _ => []

mutual

/-- `_metadata_node_ids` from `mvir.py`: every `NodeId` embedded in a
metadata value, in generator order.  Primitives and datetimes yield
nothing; lists yield from each element; dicts yield from each key and then
its value. -/
def metadata_node_ids : Value → List NodeId
  | .vnone => []
  | .vbool _ => []
  | .vint _ => []
  | .vstr _ => []
  | .vbytes _ => []
  | .vdatetime _ _ _ _ _ _ _ => []
  | .vid i => [i]
  | .vlist xs => metadata_node_ids_list xs
  | .vdict xs => metadata_node_ids_pairs xs

/-- Ids embedded in the elements of a list value. -/
def metadata_node_ids_list : List Value → List NodeId
  | [] => []
  | x :: xs => metadata_node_ids x ++ metadata_node_ids_list xs

/-- Ids embedded in the pairs of a dict value (key before value). -/
def metadata_node_ids_pairs : List (Value × Value) → List NodeId
  | [] => []
  | (k, v) :: xs => metadata_node_ids k ++ metadata_node_ids v ++ metadata_node_ids_pairs xs

end

/-- The index records `_update_index` emits when it processes one node:
for each metadata field in order, an `IndexEntry(src_id, n.kind, k)`
appended to the index shard of every embedded destination id. -/
def entriesOfNode (n : NodeFile) : List (NodeId × IndexEntry) :=
  n.meta.flatMap (fun p =>
    (metadata_node_ids p.2).map (fun dest => (dest, ⟨n.nid, metaKind n.meta, p.1⟩)))

/-- The shard a node id lives in: `raw[:1]` (directory `nodes/<b0>/`). -/
def NodeId.shard (id : NodeId) : List Nat := id.raw.take 1

/-- The derived mtime of a shard directory.  Renaming a file into a
directory sets the directory's mtime, and node files are never modified
afterwards, so the directory mtime is the maximum mtime over the shard's
files (0 for an empty shard; `_nodes_newer_than` only consults it for
shards containing the file under consideration). -/
def dirMtime (s : Store) (sh : List Nat) : Nat :=
  ((s.nodes.filter (fun n => decide (n.nid.shard = sh))).map (fun n => n.mtime)).foldr max 0

/-- `MVIR._nodes_newer_than(mtime)`: every node file whose mtime ties or
exceeds the watermark, skipping shard directories strictly older than the
watermark; a `None` watermark yields everything on disk. -/
def nodes_newer_than (s : Store) : Option Nat → List NodeFile
  | none => s.nodes
  | some w => s.nodes.filter (fun n =>
      decide (w ≤ dirMtime s n.nid.shard) && decide (w ≤ n.mtime))

/-- Content of the `index` stamp (`_read_stamp('index')` of a missing
stamp is empty, so `prev_nodes` is the empty set). -/
def stampContent (s : Store) : List NodeId :=
  match s.stampIndex with
  | some (_, l) => l
  | none => []

/-- Mtime of the `index` stamp, when it exists. -/
def stampIndexMtime (s : Store) : Option Nat := s.stampIndex.map (fun p => p.1)

/-- `MVIR._update_index(prev_mtime)` followed by its final
`_touch_stamp('index', processed_nodes)` at time `t`.  Every node at or
above the previous watermark is recorded in `processed_nodes` (even if it
was already processed); nodes not in the previous stamp's content
additionally get their index entries appended. -/
def update_index (s : Store) (t : Nat) : Store :=
  let prevNodes := stampContent s
  let scanned := nodes_newer_than s (stampIndexMtime s)
  let newEntries :=
    (scanned.filter (fun n => !(prevNodes.contains n.nid))).flatMap entriesOfNode
  { s with
      index := s.index ++ newEntries,
      stampIndex := some (t, scanned.map (fun n => n.nid)) }

/-- `MVIR._check_index` at time `t`: update when the index stamp is
missing, or when the nodes stamp exists and its mtime ties or exceeds the
index stamp's (equal mtimes conservatively trigger an update). -/
def check_index (s : Store) (t : Nat) : Store :=
  match s.stampIndex, s.stampNodes with
  | none, _ => update_index s t
  | some (iw, _), some nw => if iw ≤ nw then update_index s t else s
  | some _, none => s

/-- Reading the index shard of `target` (the tail of `MVIR.index` after
`_check_index` has run): all recorded entries, in append order, or empty
when the shard file is absent. -/
def indexShard (s : Store) (target : NodeId) : List IndexEntry :=
  (s.index.filter (fun p => decide (p.1 = target))).map (fun p => p.2)

/-- `Node._create`: hash the canonical metadata bytes plus body into the
NodeId; an in-process cache hit returns the existing node with no
filesystem effect; an existing file on disk is adopted into the cache
without writing; otherwise the `nodes` stamp is touched (at `t1`, before
the write), the file is written to a temp name and atomically renamed into
place (completed at `t2`, which becomes the file's and its shard
directory's mtime), and only then is the node published to the cache.  The
Boolean records whether a write happened. -/
def Node.create (dumps : Cbor → List Nat) (digest : List Nat → NodeId)
    (md : MetaDict) (body : List Nat) (t1 t2 : Nat) (s : Store) :
    NodeId × Store × Bool :=
  let node_id := nodeIdOf dumps digest md body
  if s.cache.contains node_id then
    (node_id, s, false)
  else if s.nodes.any (fun n => decide (n.nid = node_id)) then
    (node_id, { s with cache := node_id :: s.cache }, false)
  else
    (node_id,
     { s with
         nodes := s.nodes ++ [⟨node_id, md, body, t2⟩],
         cache := node_id :: s.cache,
         stampNodes := some t1 },
     true)

/-- `Node.new`: validate the metadata against the kind's declared fields
(`_check_metadata`), then `_create`. -/
def Node.new (dumps : Cbor → List Nat) (digest : List Nat → NodeId)
    (fields : List (Str × FieldTy)) (md : MetaDict) (body : List Nat)
    (t1 t2 : Nat) (s : Store) : Except MetaErr (NodeId × Store × Bool) :=
  match Node.check_metadata fields md with
  | .error e => .error e
  | .ok () => .ok (Node.create dumps digest md body t1 t2 s)

/-- A store operation in a single-process trace: creating a node (`t1` is
the `nodes`-stamp touch, `t2` the completed write) or an index-triggering
query at time `t`. -/
inductive Op where
  | create (t1 t2 : Nat) (md : MetaDict) (body : List Nat)
  | query (t : Nat) (target : NodeId)

/-- Effect of one operation on the store. -/
def applyOp (dumps : Cbor → List Nat) (digest : List Nat → NodeId)
    (s : Store) : Op → Store
  | .create t1 t2 md body => (Node.create dumps digest md body t1 t2 s).2.1
  | .query t _ => check_index s t

/-- Run a trace of operations. -/
def runOps (dumps : Cbor → List Nat) (digest : List Nat → NodeId) :
    Store → List Op → Store
  | s, [] => s
  | s, op :: ops => runOps dumps digest (applyOp dumps digest s op) ops

/-- Clock validity for a trace: event times never decrease (`c` is the
time of the latest preceding event; the only assumption the source makes
is that the clock never goes backwards, so ties are allowed). -/
def validTrace : Nat → List Op → Bool
  | _, [] => true
  | c, .create t1 t2 _ _ :: ops =>
      decide (c ≤ t1) && decide (t1 ≤ t2) && validTrace t2 ops
  | c, .query t _ :: ops => decide (c ≤ t) && validTrace t ops

/-- Occurrences of a reference to `b` under field key `k` in a metadata
dict, counted through nested sequences and maps. -/
def refOccs (md : MetaDict) (k : Str) (b : NodeId) : Nat :=
  ((md.filter (fun p => decide (p.1 = k))).flatMap
    (fun p => metadata_node_ids p.2)).count b

/-! ### C1: content addressing and deduplication -/

theorem create_fst (dumps : Cbor → List Nat) (digest : List Nat → NodeId)
    (md : MetaDict) (body : List Nat) (t1 t2 : Nat) (s : Store) :
    (Node.create dumps digest md body t1 t2 s).1 = nodeIdOf dumps digest md body := by
  simp only [Node.create]
  split
  · rfl
  · split
    · rfl
    · rfl

theorem create_cache_mem (dumps : Cbor → List Nat) (digest : List Nat → NodeId)
    (md : MetaDict) (body : List Nat) (t1 t2 : Nat) (s : Store) :
    (Node.create dumps digest md body t1 t2 s).2.1.cache.contains
      (nodeIdOf dumps digest md body) = true := by
  simp only [Node.create]
  split
  · next h => exact h
  · split
    · simp
    · simp

theorem create_cached_noop (dumps : Cbor → List Nat) (digest : List Nat → NodeId)
    (md : MetaDict) (body : List Nat) (t1 t2 : Nat) (s : Store)
    (h : s.cache.contains (nodeIdOf dumps digest md body) = true) :
    Node.create dumps digest md body t1 t2 s = (nodeIdOf dumps digest md body, s, false) := by
  simp only [Node.create]
  rw [if_pos h]

theorem create_nodup (dumps : Cbor → List Nat) (digest : List Nat → NodeId)
    (md : MetaDict) (body : List Nat) (t1 t2 : Nat) (s : Store)
    (hnd : (s.nodes.map (fun n => n.nid)).Nodup) :
    ((Node.create dumps digest md body t1 t2 s).2.1.nodes.map (fun n => n.nid)).Nodup := by
  simp only [Node.create]
  split
  · exact hnd
  · split
    · exact hnd
    · next hdisk =>
        simp only [List.map_append, List.map_cons, List.map_nil]
        rw [List.nodup_append]
        refine ⟨hnd, List.nodup_singleton _, ?_⟩
        intro a ha hb
        simp only [List.mem_singleton] at hb
        subst hb
        rw [List.mem_map] at ha
        obtain ⟨n, hn, hna⟩ := ha
        exact hdisk (by rw [List.any_eq_true]; exact ⟨n, hn, by simp [hna]⟩)

/-- C1: for a (kind, metadata, body) accepted by validation, creating the
node twice with identical inputs yields the same NodeId both times; the
second call returns the existing node without writing — the store is left
untouched, bit for bit — and at most one node file exists on disk for
that NodeId. -/
theorem create_dedup (dumps : Cbor → List Nat) (digest : List Nat → NodeId)
    (fields : List (Str × FieldTy)) (md : MetaDict) (body : List Nat)
    (t1 t2 t3 t4 : Nat) (s : Store)
    (hval : Node.check_metadata fields md = .ok ())
    (hnd : (s.nodes.map (fun n => n.nid)).Nodup) :
    ∃ id1 s1 w1,
      Node.new dumps digest fields md body t1 t2 s = .ok (id1, s1, w1) ∧
      Node.new dumps digest fields md body t3 t4 s1 = .ok (id1, s1, false) ∧
      (s1.nodes.map (fun n => n.nid)).count id1 ≤ 1 ∧
      (s1.nodes.map (fun n => n.nid)).Nodup := by
  rcases hcr : Node.create dumps digest md body t1 t2 s with ⟨id1, s1, w1⟩
  have hfst : id1 = nodeIdOf dumps digest md body := by
    have h := create_fst dumps digest md body t1 t2 s
    rw [hcr] at h
    exact h
  have hmem := create_cache_mem dumps digest md body t1 t2 s
  rw [hcr] at hmem
  have hnd1 := create_nodup dumps digest md body t1 t2 s hnd
  rw [hcr] at hnd1
  have hsecond : Node.create dumps digest md body t3 t4 s1 =
      (nodeIdOf dumps digest md body, s1, false) :=
    create_cached_noop dumps digest md body t3 t4 s1 hmem
  refine ⟨id1, s1, w1, ?_, ?_, ?_, hnd1⟩
  · simp [Node.new, hval, hcr]
  · simp [Node.new, hval, hsecond, hfst]
  · exact List.nodup_iff_count_le_one.mp hnd1 id1

/-- Witness for `create_dedup`: a fresh store and a valid `file` node. -/
theorem create_dedup_witness :
    Node.check_metadata fileFields [(str "kind", Value.vstr (str "file"))] = .ok () ∧
    ((emptyStore.nodes.map (fun n => n.nid)).Nodup) ∧
    ∃ id1 s1 w1,
      Node.new (fun _ => []) (fun bs => ⟨bs⟩) fileFields
        [(str "kind", Value.vstr (str "file"))] [] 1 2 emptyStore = .ok (id1, s1, w1) ∧
      Node.new (fun _ => []) (fun bs => ⟨bs⟩) fileFields
        [(str "kind", Value.vstr (str "file"))] [] 3 4 s1 = .ok (id1, s1, false) ∧
      (s1.nodes.map (fun n => n.nid)).count id1 ≤ 1 ∧
      (s1.nodes.map (fun n => n.nid)).Nodup :=
  ⟨rfl, List.nodup_nil,
   create_dedup (fun _ => []) (fun bs => ⟨bs⟩) fileFields
     [(str "kind", Value.vstr (str "file"))] [] 1 2 3 4 emptyStore rfl List.nodup_nil⟩

/-! ### C3: incremental index maintenance -/

/-- The node ids present on disk. -/
def idsOnDisk (s : Store) : List NodeId := s.nodes.map (fun n => n.nid)

/-- A node counts as processed by the indexer when the last update's
persisted content records it, or when its mtime lies strictly below the
index stamp's mtime (it was covered by an earlier update). -/
def Processed (s : Store) (n : NodeFile) : Prop :=
  n.nid ∈ stampContent s ∨ ∃ w, stampIndexMtime s = some w ∧ n.mtime < w

/-- All index records whose source is `id`, in append order. -/
def srcEntries (s : Store) (id : NodeId) : List (NodeId × IndexEntry) :=
  s.index.filter (fun p => decide (p.2.node_id = id))

/-- The store invariant maintained by every operation of a valid
single-process trace; `c` bounds every time recorded in the store. -/
structure StoreInv (c : Nat) (s : Store) : Prop where
  nodup : (idsOnDisk s).Nodup
  mtimeLe : ∀ n ∈ s.nodes, n.mtime ≤ c
  idxLe : ∀ w, stampIndexMtime s = some w → w ≤ c
  nodesLe : ∀ w, s.stampNodes = some w → w ≤ c
  contentSub : ∀ i ∈ stampContent s, i ∈ idsOnDisk s
  entrySrc : ∀ p ∈ s.index, p.2.node_id ∈ idsOnDisk s
  procEmit : ∀ n ∈ s.nodes, Processed s n → srcEntries s n.nid = entriesOfNode n
  unprocEmit : ∀ n ∈ s.nodes, ¬ Processed s n → srcEntries s n.nid = []
  trigger : ∀ n ∈ s.nodes, ¬ Processed s n →
    ∃ nw, s.stampNodes = some nw ∧ ∀ w, stampIndexMtime s = some w → w ≤ nw

theorem inv_empty (c : Nat) : StoreInv c emptyStore := by
  constructor <;> simp [emptyStore, idsOnDisk, stampContent, stampIndexMtime]

theorem inv_mono (c c' : Nat) (s : Store) (h : StoreInv c s) (hcc : c ≤ c') : StoreInv c' s where
  nodup := h.nodup
  mtimeLe := fun n hn => le_trans (h.mtimeLe n hn) hcc
  idxLe := fun w hw => le_trans (h.idxLe w hw) hcc
  nodesLe := fun w hw => le_trans (h.nodesLe w hw) hcc
  contentSub := h.contentSub
  entrySrc := h.entrySrc
  procEmit := h.procEmit
  unprocEmit := h.unprocEmit
  trigger := h.trigger

theorem entriesOfNode_src (n : NodeFile) :
    ∀ p ∈ entriesOfNode n, p.2.node_id = n.nid := by
  intro p hp
  unfold entriesOfNode at hp
  rw [List.mem_flatMap] at hp
  obtain ⟨q, hq, hp⟩ := hp
  rw [List.mem_map] at hp
  obtain ⟨dest, hdest, rfl⟩ := hp
  rfl

theorem srcEntries_nil_of_not_on_disk (s : Store) (id : NodeId)
    (hsrc : ∀ p ∈ s.index, p.2.node_id ∈ idsOnDisk s)
    (hid : ¬ id ∈ idsOnDisk s) : srcEntries s id = [] := by
  unfold srcEntries
  rw [List.filter_eq_nil_iff]
  intro p hp
  simp only [decide_eq_true_eq]
  intro hcontra
  exact hid (hcontra ▸ hsrc p hp)

theorem mem_le_foldr_max (a : Nat) : ∀ l : List Nat, a ∈ l → a ≤ l.foldr max 0
  | [], h => absurd h (List.not_mem_nil a)
  | b :: l, h => by
      rcases List.mem_cons.mp h with rfl | h
      · exact le_max_left _ _
      · exact le_trans (mem_le_foldr_max a l h) (le_max_right _ _)

theorem inv_create (dumps : Cbor → List Nat) (digest : List Nat → NodeId)
    (md : MetaDict) (body : List Nat) (t1 t2 c : Nat) (s : Store)
    (hInv : StoreInv c s) (h1 : c ≤ t1) (h2 : t1 ≤ t2) :
    StoreInv t2 (Node.create dumps digest md body t1 t2 s).2.1 := by
  have hmono : StoreInv t2 s := inv_mono c t2 s hInv (le_trans h1 h2)
  simp only [Node.create]
  split
  · exact hmono
  · split
    · exact { hmono with }
    · next hdisk =>
        have hnotin : ¬ nodeIdOf dumps digest md body ∈ idsOnDisk s := by
          intro hmem
          rw [idsOnDisk, List.mem_map] at hmem
          obtain ⟨n, hn, hna⟩ := hmem
          exact hdisk (by rw [List.any_eq_true]; exact ⟨n, hn, by simp [hna]⟩)
        set nid := nodeIdOf dumps digest md body with hnid
        set nf : NodeFile := ⟨nid, md, body, t2⟩ with hnf
        have hids : idsOnDisk { s with
            nodes := s.nodes ++ [nf], cache := nid :: s.cache,
            stampNodes := some t1 } = idsOnDisk s ++ [nid] := by
          simp [idsOnDisk, hnf]
        have hproc : ∀ n : NodeFile, Processed { s with
            nodes := s.nodes ++ [nf], cache := nid :: s.cache,
            stampNodes := some t1 } n ↔ Processed s n := by
          intro n
          unfold Processed stampContent stampIndexMtime
          rfl
        refine ⟨?_, ?_, ?_, ?_, ?_, ?_, ?_, ?_, ?_⟩
        · rw [hids, List.nodup_append]
          exact ⟨hInv.nodup, List.nodup_singleton _, by
            intro a ha hb
            simp only [List.mem_singleton] at hb
            subst hb
            exact hnotin ha⟩
        · intro n hn
          rcases List.mem_append.mp hn with hn | hn
          · exact hmono.mtimeLe n hn
          · simp only [List.mem_singleton] at hn
            subst hn
            exact le_refl _
        · exact hmono.idxLe
        · intro w hw
          cases hw
          exact h2
        · intro i hi
          rw [hids]
          exact List.mem_append.mpr (Or.inl (hmono.contentSub i hi))
        · intro p hp
          rw [hids]
          exact List.mem_append.mpr (Or.inl (hmono.entrySrc p hp))
        · intro n hn hpn
          rw [hproc n] at hpn
          rcases List.mem_append.mp hn with hn | hn
          · exact hmono.procEmit n hn hpn
          · simp only [List.mem_singleton] at hn
            subst hn
            exfalso
            rcases hpn with hc | ⟨w, hw, hlt⟩
            · exact hnotin (hInv.contentSub _ hc)
            · exact absurd hlt (by
                have := hInv.idxLe w hw
                simp only [hnf]
                omega)
        · intro n hn hpn
          rw [hproc n] at hpn
          rcases List.mem_append.mp hn with hn | hn
          · exact hmono.unprocEmit n hn hpn
          · simp only [List.mem_singleton] at hn
            subst hn
            exact srcEntries_nil_of_not_on_disk s nid hmono.entrySrc hnotin
        · intro n hn hpn
          rw [hproc n] at hpn
          refine ⟨t1, rfl, ?_⟩
          intro w hw
          exact le_trans (hInv.idxLe w hw) h1

theorem nid_inj_of_nodup (nodes : List NodeFile)
    (hnd : (nodes.map (fun m => m.nid)).Nodup) :
    ∀ m ∈ nodes, ∀ n ∈ nodes, m.nid = n.nid → m = n := by
  have hbase : nodes.Nodup := hnd.of_map
  exact fun m hm n hn he => (List.nodup_map_iff_inj_on hbase).mp hnd m hm n hn he

theorem filter_src_flatMap (nodes : List NodeFile)
    (hnd : (nodes.map (fun m => m.nid)).Nodup) (n : NodeFile) (hn : n ∈ nodes) :
    ∀ L : List NodeFile, (∀ m ∈ L, m ∈ nodes) → L.Nodup →
      ((n ∈ L →
        (L.flatMap entriesOfNode).filter (fun p => decide (p.2.node_id = n.nid)) =
          entriesOfNode n) ∧
       (¬ n ∈ L →
        (L.flatMap entriesOfNode).filter (fun p => decide (p.2.node_id = n.nid)) = []))
  | [], _, _ => by simp
  | m :: L, hsub, hLnd => by
      rw [List.flatMap_cons, List.filter_append]
      have hmnodes : m ∈ nodes := hsub m (List.mem_cons_self m L)
      have hsub' : ∀ x ∈ L, x ∈ nodes := fun x hx => hsub x (List.mem_cons_of_mem m hx)
      have hLnd' : L.Nodup := (List.nodup_cons.mp hLnd).2
      have ih := filter_src_flatMap nodes hnd n hn L hsub' hLnd'
      by_cases hmn : m = n
      · subst hmn
        have hfilter : (entriesOfNode m).filter (fun p => decide (p.2.node_id = m.nid)) =
            entriesOfNode m := by
          rw [List.filter_eq_self]
          intro p hp
          simp [entriesOfNode_src m p hp]
        have hnotL : ¬ m ∈ L := (List.nodup_cons.mp hLnd).1
        constructor
        · intro _
          rw [hfilter, ih.2 hnotL]
          simp
        · intro h
          exact absurd (List.mem_cons_self m L) h
      · have hidne : m.nid ≠ n.nid := fun he =>
          hmn (nid_inj_of_nodup nodes hnd m hmnodes n hn he)
        have hfilter : (entriesOfNode m).filter (fun p => decide (p.2.node_id = n.nid)) = [] := by
          rw [List.filter_eq_nil_iff]
          intro p hp
          simp [entriesOfNode_src m p hp, hidne]
        constructor
        · intro h
          rcases List.mem_cons.mp h with h | h
          · exact absurd h.symm hmn
          · rw [hfilter, ih.1 h]
            simp
        · intro h
          have hnL : ¬ n ∈ L := fun h' => h (List.mem_cons_of_mem m h')
          rw [hfilter, ih.2 hnL]
          simp

theorem nodes_newer_than_some (s : Store) (w : Nat) :
    nodes_newer_than s (some w) = s.nodes.filter (fun n => decide (w ≤ n.mtime)) := by
  unfold nodes_newer_than
  apply List.filter_congr
  intro n hn
  by_cases hm : w ≤ n.mtime
  · have hdir : w ≤ dirMtime s n.nid.shard := by
      refine le_trans hm (mem_le_foldr_max _ _ ?_)
      rw [List.mem_map]
      refine ⟨n, ?_, rfl⟩
      rw [List.mem_filter]
      exact ⟨hn, by simp⟩
    simp [hm, hdir]
  · simp [hm]

theorem nodes_newer_than_sub (s : Store) (p : Option Nat) :
    ∀ m ∈ nodes_newer_than s p, m ∈ s.nodes := by
  cases p with
  | none => exact fun m hm => hm
  | some w => exact fun m hm => (List.mem_filter.mp hm).1

theorem nodes_newer_than_nodup (s : Store) (p : Option Nat)
    (hnd : s.nodes.Nodup) : (nodes_newer_than s p).Nodup := by
  cases p with
  | none => exact hnd
  | some w => exact hnd.filter _

theorem inv_update (c t : Nat) (s : Store) (hInv : StoreInv c s) (hct : c ≤ t) :
    StoreInv t (update_index s t) ∧
      ∀ n ∈ (update_index s t).nodes, Processed (update_index s t) n := by
  have hnodesnd : s.nodes.Nodup := hInv.nodup.of_map
  set prev := stampIndexMtime s with hprev
  set scanned := nodes_newer_than s prev with hscan
  set L := scanned.filter (fun n => !((stampContent s).contains n.nid)) with hL
  set newE := L.flatMap entriesOfNode with hnewE
  have hs' : update_index s t =
      { s with index := s.index ++ newE,
               stampIndex := some (t, scanned.map (fun n => n.nid)) } := rfl
  have hscansub : ∀ m ∈ scanned, m ∈ s.nodes := nodes_newer_than_sub s prev
  have hLsub : ∀ m ∈ L, m ∈ s.nodes := fun m hm => hscansub m (List.mem_filter.mp hm).1
  have hLnd : L.Nodup := (nodes_newer_than_nodup s prev hnodesnd).filter _
  have hsrc' : ∀ id, srcEntries (update_index s t) id =
      srcEntries s id ++ newE.filter (fun p => decide (p.2.node_id = id)) := by
    intro id
    rw [hs']
    unfold srcEntries
    exact List.filter_append s.index newE
  have hmemL : ∀ n ∈ s.nodes, (n ∈ L ↔ (n ∈ scanned ∧ ¬ n.nid ∈ stampContent s)) := by
    intro n hn
    rw [hL, List.mem_filter]
    simp
  have hproc' : ∀ n : NodeFile, Processed (update_index s t) n ↔
      (n.nid ∈ scanned.map (fun m => m.nid) ∨ n.mtime < t) := by
    intro n
    rw [hs']
    unfold Processed stampContent stampIndexMtime
    simp
  have hmain : ∀ n ∈ s.nodes,
      srcEntries (update_index s t) n.nid = entriesOfNode n ∧
      Processed (update_index s t) n := by
    intro n hn
    rw [hsrc' n.nid, hproc' n, hnewE]
    have hsplit := filter_src_flatMap s.nodes hInv.nodup n hn L hLsub hLnd
    by_cases hnsc : n ∈ scanned
    · have hmemscan : n.nid ∈ scanned.map (fun m => m.nid) :=
        List.mem_map.mpr ⟨n, hnsc, rfl⟩
      by_cases hcont : n.nid ∈ stampContent s
      · -- scanned again but already in the previous content: no re-emit
        have hnL : ¬ n ∈ L := fun h => ((hmemL n hn).mp h).2 hcont
        rw [hsplit.2 hnL, hInv.procEmit n hn (Or.inl hcont)]
        exact ⟨by simp, Or.inl hmemscan⟩
      · -- newly processed in this run
        have hnL : n ∈ L := (hmemL n hn).mpr ⟨hnsc, hcont⟩
        have hunproc : ¬ Processed s n := by
          intro hp
          rcases hp with hc | ⟨w, hw, hlt⟩
          · exact hcont hc
          · rw [← hprev] at hw
            cases hweq : prev with
            | none => rw [hweq] at hw; exact Option.noConfusion hw
            | some w' =>
                rw [hweq] at hw
                cases hw
                rw [hweq, nodes_newer_than_some] at hscan
                have := (List.mem_filter.mp (hscan ▸ hnsc)).2
                simp only [decide_eq_true_eq] at this
                omega
        rw [hsplit.1 hnL, hInv.unprocEmit n hn hunproc]
        exact ⟨by simp, Or.inl hmemscan⟩
    · -- not scanned: strictly below the previous watermark, processed earlier
      have hnL : ¬ n ∈ L := fun h => hnsc (List.mem_filter.mp h).1
      rw [hsplit.2 hnL]
      cases hweq : prev with
      | none =>
          exfalso
          rw [hweq] at hscan
          exact hnsc (hscan ▸ hn)
      | some w =>
          have hlt : n.mtime < w := by
            rw [hweq, nodes_newer_than_some] at hscan
            by_contra hge
            exact hnsc (hscan ▸ (List.mem_filter.mpr ⟨hn, by
              simp only [decide_eq_true_eq]
              omega⟩))
          have hwc : w ≤ c := hInv.idxLe w (by rw [← hprev, hweq])
          rw [hInv.procEmit n hn (Or.inr ⟨w, by rw [← hprev, hweq], hlt⟩)]
          exact ⟨by simp, Or.inr (by omega)⟩
  refine ⟨⟨?_, ?_, ?_, ?_, ?_, ?_, ?_, ?_, ?_⟩, ?_⟩
  · rw [hs']
    exact hInv.nodup
  · rw [hs']
    exact fun n hn => le_trans (hInv.mtimeLe n hn) hct
  · rw [hs']
    intro w hw
    simp only [stampIndexMtime, Option.map] at hw
    cases hw
    exact le_refl t
  · rw [hs']
    exact fun w hw => le_trans (hInv.nodesLe w hw) hct
  · rw [hs']
    intro i hi
    simp only [stampContent] at hi
    rw [List.mem_map] at hi
    obtain ⟨m, hm, rfl⟩ := hi
    exact List.mem_map.mpr ⟨m, hscansub m hm, rfl⟩
  · rw [hs']
    intro p hp
    rcases List.mem_append.mp hp with hp | hp
    · exact hInv.entrySrc p hp
    · rw [hnewE, List.mem_flatMap] at hp
      obtain ⟨m, hm, hp⟩ := hp
      rw [entriesOfNode_src m p hp]
      exact List.mem_map.mpr ⟨m, hLsub m hm, rfl⟩
  · intro n hn _
    exact (hmain n hn).1
  · intro n hn hun
    exact absurd (hmain n hn).2 hun
  · intro n hn hun
    exact absurd (hmain n hn).2 hun
  · exact fun n hn => (hmain n hn).2

theorem inv_check (c t : Nat) (s : Store) (hInv : StoreInv c s) (hct : c ≤ t) :
    StoreInv t (check_index s t) ∧
      ∀ n ∈ (check_index s t).nodes, Processed (check_index s t) n := by
  unfold check_index
  cases hsi : s.stampIndex with
  | none => exact inv_update c t s hInv hct
  | some p =>
      rcases p with ⟨iw, content⟩
      cases hsn : s.stampNodes with
      | none =>
          refine ⟨inv_mono c t s hInv hct, ?_⟩
          intro n hn
          by_contra hun
          obtain ⟨nw, hnw, _⟩ := hInv.trigger n hn hun
          rw [hsn] at hnw
          exact Option.noConfusion hnw
      | some nw =>
          dsimp only
          by_cases hle : iw ≤ nw
          · rw [if_pos hle]
            exact inv_update c t s hInv hct
          · rw [if_neg hle]
            refine ⟨inv_mono c t s hInv hct, ?_⟩
            intro n hn
            by_contra hun
            obtain ⟨nw', hnw', hw⟩ := hInv.trigger n hn hun
            rw [hsn] at hnw'
            cases hnw'
            exact hle (hw iw (by simp [stampIndexMtime, hsi]))

/-- The time of the last event of a trace. -/
def traceEnd : Nat → List Op → Nat
  | c, [] => c
  | _, .create _ t2 _ _ :: ops => traceEnd t2 ops
  | _, .query t _ :: ops => traceEnd t ops

theorem runOps_append (dumps : Cbor → List Nat) (digest : List Nat → NodeId) :
    ∀ (ops1 ops2 : List Op) (s : Store),
      runOps dumps digest s (ops1 ++ ops2) =
        runOps dumps digest (runOps dumps digest s ops1) ops2
  | [], ops2, s => rfl
  | op :: ops1, ops2, s => by
      rw [List.cons_append]
      exact runOps_append dumps digest ops1 ops2 (applyOp dumps digest s op)

theorem validTrace_split (ops2 : List Op) :
    ∀ (ops1 : List Op) (c : Nat), validTrace c (ops1 ++ ops2) = true →
      validTrace c ops1 = true ∧ validTrace (traceEnd c ops1) ops2 = true
  | [], c, h => ⟨rfl, h⟩
  | .create t1 t2 md body :: ops1, c, h => by
      simp only [List.cons_append, validTrace, Bool.and_eq_true] at h ⊢
      obtain ⟨h12, hrest⟩ := h
      obtain ⟨ha, hb⟩ := validTrace_split ops2 ops1 t2 hrest
      exact ⟨⟨h12, ha⟩, hb⟩
  | .query t q :: ops1, c, h => by
      simp only [List.cons_append, validTrace, Bool.and_eq_true] at h ⊢
      obtain ⟨h1, hrest⟩ := h
      obtain ⟨ha, hb⟩ := validTrace_split ops2 ops1 t hrest
      exact ⟨⟨h1, ha⟩, hb⟩

theorem inv_run (dumps : Cbor → List Nat) (digest : List Nat → NodeId) :
    ∀ (ops : List Op) (c : Nat) (s : Store), StoreInv c s → validTrace c ops = true →
      StoreInv (traceEnd c ops) (runOps dumps digest s ops)
  | [], c, s, h, _ => h
  | .create t1 t2 md body :: ops, c, s, h, hv => by
      simp only [validTrace, Bool.and_eq_true, decide_eq_true_eq] at hv
      obtain ⟨⟨h1, h2⟩, hrest⟩ := hv
      exact inv_run dumps digest ops t2 _
        (inv_create dumps digest md body t1 t2 c s h h1 h2) hrest
  | .query t q :: ops, c, s, h, hv => by
      simp only [validTrace, Bool.and_eq_true, decide_eq_true_eq] at hv
      obtain ⟨h1, hrest⟩ := hv
      exact inv_run dumps digest ops t _ ((inv_check c t s h h1).1) hrest

theorem count_map_filter_pair (l : List (NodeId × IndexEntry)) (b : NodeId) (e : IndexEntry) :
    ((l.filter (fun p => decide (p.1 = b))).map (fun p => p.2)).count e = l.count (b, e) := by
  induction l with
  | nil => rfl
  | cons p l ih =>
      rcases p with ⟨x, y⟩
      by_cases hx : x = b
      · subst hx
        rw [List.filter_cons_of_pos (by simp), List.map_cons, List.count_cons,
          List.count_cons, ih]
        congr 1
        simp [Prod.ext_iff]
      · rw [List.filter_cons_of_neg (by simp [hx]), List.count_cons, ih]
        have : ¬ ((x, y) = (b, e)) := by
          simp [Prod.ext_iff]
          intro h
          exact absurd h hx
        simp [this]

theorem count_src (s : Store) (id : NodeId) (b : NodeId) (e : IndexEntry)
    (he : e.node_id = id) :
    s.index.count (b, e) = (srcEntries s id).count (b, e) := by
  unfold srcEntries
  rw [List.count_filter (by simp [he])]

theorem count_map_pair (c0 : IndexEntry) (b : NodeId) :
    ∀ l : List NodeId, (l.map (fun d => (d, c0))).count (b, c0) = l.count b
  | [] => rfl
  | d :: l => by
      rw [List.map_cons, List.count_cons, List.count_cons, count_map_pair c0 b l]
      congr 1
      simp [Prod.ext_iff]

theorem count_entries_gen (nid : NodeId) (kind k : Str) (b : NodeId) :
    ∀ md : MetaDict,
      (md.flatMap (fun p => (metadata_node_ids p.2).map
        (fun dest => (dest, (⟨nid, kind, p.1⟩ : IndexEntry))))).count
          (b, ⟨nid, kind, k⟩) =
      ((md.filter (fun p => decide (p.1 = k))).flatMap
        (fun p => metadata_node_ids p.2)).count b
  | [] => rfl
  | (k', v) :: md => by
      rw [List.flatMap_cons, List.count_append]
      by_cases hk : k' = k
      · subst hk
        rw [List.filter_cons_of_pos (by simp), List.flatMap_cons, List.count_append,
          count_entries_gen nid kind k' b md, count_map_pair]
      · rw [List.filter_cons_of_neg (by simp [hk]), count_entries_gen nid kind k b md]
        have hzero : ((metadata_node_ids (k', v).2).map
            (fun dest => (dest, (⟨nid, kind, (k', v).1⟩ : IndexEntry)))).count
              (b, ⟨nid, kind, k⟩) = 0 := by
          rw [List.count_eq_zero]
          intro hmem
          rw [List.mem_map] at hmem
          obtain ⟨d, hd, he⟩ := hmem
          rw [Prod.ext_iff] at he
          obtain ⟨-, he2⟩ := he
          exact hk (congrArg IndexEntry.key he2)
        omega

theorem count_entriesOfNode (n : NodeFile) (k : Str) (b : NodeId) :
    (entriesOfNode n).count (b, ⟨n.nid, metaKind n.meta, k⟩) = refOccs n.meta k b := by
  unfold entriesOfNode refOccs
  exact count_entries_gen n.nid (metaKind n.meta) k b n.meta

/-- C3 amended: after any index-triggering query, for every stored node A,
every target id B and every field key k, the number of `IndexEntry`
records `(A, A.kind, k)` returned by `query(B)` equals the number of
occurrences of a reference to B under field k inside A's metadata
(through nested sequences and maps).  In particular the entry is present
exactly once whenever the reference occurs exactly once, and a node whose
mtime ties the persisted watermark is neither silently skipped nor
recorded twice across successive index updates. -/
theorem index_completeness (dumps : Cbor → List Nat) (digest : List Nat → NodeId)
    (ops : List Op) (t : Nat) (q b : NodeId) (k : Str)
    (hv : validTrace 0 (ops ++ [Op.query t q]) = true) :
    ∀ n ∈ (runOps dumps digest emptyStore (ops ++ [Op.query t q])).nodes,
      (indexShard (runOps dumps digest emptyStore (ops ++ [Op.query t q])) b).count
        ⟨n.nid, metaKind n.meta, k⟩ = refOccs n.meta k b := by
  obtain ⟨hv1, hv2⟩ := validTrace_split [Op.query t q] ops 0 hv
  have hq : traceEnd 0 ops ≤ t := by
    simp only [validTrace, Bool.and_eq_true, decide_eq_true_eq] at hv2
    exact hv2.1
  have hinv1 := inv_run dumps digest ops 0 emptyStore (inv_empty 0) hv1
  have hchk := inv_check (traceEnd 0 ops) t (runOps dumps digest emptyStore ops) hinv1 hq
  have hfin : runOps dumps digest emptyStore (ops ++ [Op.query t q]) =
      check_index (runOps dumps digest emptyStore ops) t := by
    rw [runOps_append]
    rfl
  rw [hfin]
  intro n hn
  have hsrc := hchk.1.procEmit n hn (hchk.2 n hn)
  rw [show indexShard (check_index (runOps dumps digest emptyStore ops) t) b =
      (((check_index (runOps dumps digest emptyStore ops) t).index.filter
        (fun p => decide (p.1 = b))).map (fun p => p.2)) from rfl]
  rw [count_map_filter_pair,
    count_src (check_index (runOps dumps digest emptyStore ops) t) n.nid b
      ⟨n.nid, metaKind n.meta, k⟩ rfl,
    hsrc, count_entriesOfNode]

/-- Metadata of a node whose `files` dict references the same target id
under two different path keys. -/
def doubleRefMeta : MetaDict :=
  [(str "kind", .vstr (str "tree")),
   (str "files", .vdict [(.vstr (str "a.rs"), .vid ⟨[1]⟩),
                         (.vstr (str "b.rs"), .vid ⟨[1]⟩)])]

/-- C3 counterexample: a stored `tree` node whose `files` map holds the
same target NodeId under two path keys.  After the index-triggering query,
`query(B)` holds the IndexEntry `(A, tree, files)` twice — once per
occurrence of the reference — not "exactly once" as the claim states. -/
theorem index_entry_not_unique :
    (runOps (fun _ => []) (fun _ => ⟨[0]⟩) emptyStore
        [Op.create 1 1 doubleRefMeta [], Op.query 2 ⟨[1]⟩]).nodes.map
      (fun n => n.meta) = [doubleRefMeta] ∧
    refOccs doubleRefMeta (str "files") ⟨[1]⟩ = 2 ∧
    (indexShard (runOps (fun _ => []) (fun _ => ⟨[0]⟩) emptyStore
        [Op.create 1 1 doubleRefMeta [], Op.query 2 ⟨[1]⟩]) ⟨[1]⟩).count
      ⟨⟨[0]⟩, str "tree", str "files"⟩ = 2 :=
  ⟨rfl, rfl, rfl⟩

/-- Metadata of the witness node: a single reference to the target id
under the field `code`. -/
def singleRefMeta : MetaDict :=
  [(str "kind", .vstr (str "test_result_node")), (str "code", .vid ⟨[1]⟩)]

/-- Witness for `index_completeness`: one created node with one reference,
then a query; the entry count equals the occurrence count (both 1). -/
theorem index_completeness_witness :
    validTrace 0 [Op.create 1 1 singleRefMeta [], Op.query 2 ⟨[1]⟩] = true ∧
    (indexShard (runOps (fun _ => []) (fun _ => ⟨[0]⟩) emptyStore
        [Op.create 1 1 singleRefMeta [], Op.query 2 ⟨[1]⟩]) ⟨[1]⟩).count
      ⟨⟨[0]⟩, metaKind singleRefMeta, str "code"⟩ =
      refOccs singleRefMeta (str "code") ⟨[1]⟩ :=
  ⟨by decide,
   index_completeness (fun _ => []) (fun _ => ⟨[0]⟩) [Op.create 1 1 singleRefMeta []]
     2 ⟨[1]⟩ ⟨[1]⟩ (str "code") (by decide)
     ⟨⟨[0]⟩, singleRefMeta, [], 1⟩
     (List.mem_singleton.mpr rfl)⟩

/-! ### C5: tags and the reflog -/

/-- `NodeId.LENGTH`: the SHA-256 digest size. -/
def NodeId.LENGTH : Nat := 32

/-- Modelled from the spec: the external `cbor` library's `dump` of the
`[timestamp, reason]` pair that `set_tag` writes in front of the raw id
bytes ("append-only: repeated [cbor([timestamp,reason]), 32-byte
NodeId]").  CBOR values are self-delimiting; the model length-prefixes an
opaque payload standing for the encoded pair, and `cbor.load` consumes
exactly one such value. -/
def encodeTsReason (payload : List Nat) : List Nat := payload.length :: payload

/-- `MVIR.set_tag`: open the tag's log file in append mode and write
`cbor([timestamp, reason])` followed by `node_id.raw`. -/
def set_tag (file : List Nat) (tsReason : List Nat) (id : NodeId) : List Nat :=
  file ++ encodeTsReason tsReason ++ id.raw

/-- `MVIR.tag`: `f.seek(-NodeId.LENGTH, os.SEEK_END)` then
`f.read(NodeId.LENGTH)` — only the final fixed-size record is read,
regardless of the log's length. -/
def tag (file : List Nat) : NodeId :=
  ⟨file.drop (file.length - NodeId.LENGTH)⟩

/-- The loop of `MVIR.tag_reflog`: while bytes remain, `cbor.load(f)`
consumes one `[timestamp, reason]` value and `f.read(NodeId.LENGTH)` the
id; `fuel` bounds the iteration count (one byte is consumed per step, so
the file length suffices). -/
def tag_reflog_go : Nat → List Nat → List (List Nat × NodeId)
  | 0, _ => []
  | _ + 1, [] => []
  | fuel + 1, len :: rest =>
      let payload := rest.take len
      let after := rest.drop len
      (payload, ⟨after.take NodeId.LENGTH⟩) ::
        tag_reflog_go fuel (after.drop NodeId.LENGTH)

/-- `MVIR.tag_reflog`: parse the whole log, oldest entry first. -/
def tag_reflog (file : List Nat) : List (List Nat × NodeId) :=
  tag_reflog_go file.length file

/-- The log file produced by appending the given entries, oldest first. -/
def tagFileOf (entries : List (List Nat × NodeId)) : List Nat :=
  entries.flatMap (fun e => encodeTsReason e.1 ++ e.2.raw)

theorem set_tag_foldl : ∀ (entries : List (List Nat × NodeId)) (file : List Nat),
    entries.foldl (fun f e => set_tag f e.1 e.2) file = file ++ tagFileOf entries
  | [], file => by simp [tagFileOf]
  | e :: entries, file => by
      rw [List.foldl_cons, set_tag_foldl entries]
      simp [set_tag, tagFileOf, List.flatMap_cons]

theorem tag_reflog_go_spec :
    ∀ (entries : List (List Nat × NodeId)) (fuel : Nat),
      (∀ e ∈ entries, e.2.raw.length = NodeId.LENGTH) →
      (tagFileOf entries).length ≤ fuel →
      tag_reflog_go fuel (tagFileOf entries) = entries
  | [], fuel, _, _ => by cases fuel <;> rfl
  | e :: entries, fuel, hlen, hfuel => by
      have hfile : tagFileOf (e :: entries) =
          e.1.length :: (e.1 ++ (e.2.raw ++ tagFileOf entries)) := by
        simp [tagFileOf, encodeTsReason, List.flatMap_cons, List.append_assoc]
      cases fuel with
      | zero =>
          rw [hfile] at hfuel
          simp at hfuel
      | succ fuel =>
          rw [hfile]
          unfold tag_reflog_go
          dsimp only
          have htake : (e.1 ++ (e.2.raw ++ tagFileOf entries)).take e.1.length = e.1 :=
            List.take_left' rfl
          have hdrop : (e.1 ++ (e.2.raw ++ tagFileOf entries)).drop e.1.length =
              e.2.raw ++ tagFileOf entries :=
            List.drop_left' rfl
          have hid := hlen e (List.mem_cons_self e entries)
          have htake2 : (e.2.raw ++ tagFileOf entries).take NodeId.LENGTH = e.2.raw :=
            List.take_left' hid
          have hdrop2 : (e.2.raw ++ tagFileOf entries).drop NodeId.LENGTH =
              tagFileOf entries :=
            List.drop_left' hid
          rw [htake, hdrop, htake2, hdrop2]
          have hrest : (tagFileOf entries).length ≤ fuel := by
            rw [hfile] at hfuel
            simp only [List.length_cons, List.length_append] at hfuel
            omega
          rw [tag_reflog_go_spec entries fuel
            (fun x hx => hlen x (List.mem_cons_of_mem e hx)) hrest]

/-- C5: after any non-empty sequence of `set_tag` appends, the log file is
the concatenation of the encoded entries; `tag` — reading only the final
fixed-size record from the end of the file — returns the NodeId of the
most recent `set_tag`; and `tag_reflog` returns every appended entry in
insertion order, oldest first. -/
theorem tag_resolution (entries : List (List Nat × NodeId))
    (last : List Nat × NodeId)
    (hlen : ∀ e ∈ entries ++ [last], e.2.raw.length = NodeId.LENGTH) :
    (entries ++ [last]).foldl (fun f e => set_tag f e.1 e.2) [] =
      tagFileOf (entries ++ [last]) ∧
    tag (tagFileOf (entries ++ [last])) = last.2 ∧
    tag_reflog (tagFileOf (entries ++ [last])) = entries ++ [last] := by
  refine ⟨by rw [set_tag_foldl]; simp, ?_, ?_⟩
  · have hsplit : tagFileOf (entries ++ [last]) =
        (tagFileOf entries ++ encodeTsReason last.1) ++ last.2.raw := by
      simp [tagFileOf, List.flatMap_append, List.flatMap_cons, List.append_assoc]
    have hlast := hlen last (List.mem_append.mpr (Or.inr (List.mem_singleton.mpr rfl)))
    unfold tag
    rw [hsplit]
    have hlength : ((tagFileOf entries ++ encodeTsReason last.1) ++ last.2.raw).length -
        NodeId.LENGTH = (tagFileOf entries ++ encodeTsReason last.1).length := by
      simp only [List.length_append, hlast]
      omega
    rw [hlength, List.drop_left]
  · unfold tag_reflog
    exact tag_reflog_go_spec (entries ++ [last]) _ hlen (le_refl _)

/-- Witness for `tag_resolution`: two appended entries with 32-byte ids. -/
theorem tag_resolution_witness :
    (∀ e ∈ ([([7], (⟨List.replicate 32 1⟩ : NodeId))] ++ [([9], ⟨List.replicate 32 2⟩)]),
      e.2.raw.length = NodeId.LENGTH) ∧
    tag (tagFileOf ([([7], ⟨List.replicate 32 1⟩)] ++ [([9], ⟨List.replicate 32 2⟩)])) =
      (⟨List.replicate 32 2⟩ : NodeId) ∧
    tag_reflog (tagFileOf ([([7], ⟨List.replicate 32 1⟩)] ++ [([9], ⟨List.replicate 32 2⟩)])) =
      [([7], ⟨List.replicate 32 1⟩)] ++ [([9], ⟨List.replicate 32 2⟩)] :=
  ⟨by decide,
   (tag_resolution [([7], ⟨List.replicate 32 1⟩)] ([9], ⟨List.replicate 32 2⟩)
      (by decide)).2.1,
   (tag_resolution [([7], ⟨List.replicate 32 1⟩)] ([9], ⟨List.replicate 32 2⟩)
      (by decide)).2.2⟩

/-! ### C7: schema migrations at load time -/

/-- The currently registered kinds: `NODE_KIND_MAP` built from
`NODE_CLASSES` (each class's `KIND` tag, in declaration order). -/
def NODE_KINDS : List Str :=
  [str "file", str "tree", str "compile_commands_op_v2", str "transpile_op",
   str "split_ffi_op", str "llm_op", str "test_result_node",
   str "cargo_check_json_analysis_node", str "inline_errors_op_node",
   str "find_unsafe_analysis", str "edit_op", str "def", str "crate",
   str "split_op"]

/-- Python dict assignment `md[k] = v`: replace in place when the key
exists (keeping its position), else append at the end. -/
def dictSet (md : MetaDict) (k : Str) (v : Value) : MetaDict :=
  if md.any (fun p => decide (p.1 = k)) then
    md.map (fun p => if p.1 = k then (k, v) else p)
  else md ++ [(k, v)]

/-- Python `md.pop(k)`: the removed value (if any; a miss raises
`KeyError` in Python) and the remaining dict. -/
def dictPop (md : MetaDict) (k : Str) : Option Value × MetaDict :=
  (md.lookup k, md.filter (fun p => !(decide (p.1 = k))))

/-- `migrate_compile_commands_op` (the single registered migration):
sets `kind` to `compile_commands_op_v2` and turns `cmd: list[str]` into
`cmds = [metadata.pop('cmd')]`. -/
def migrate_compile_commands_op (md : MetaDict) : MetaDict :=
  let md1 := dictSet md (str "kind") (.vstr (str "compile_commands_op_v2"))
  let popped := dictPop md1 (str "cmd")
  dictSet popped.2 (str "cmds") (.vlist [popped.1.getD .vnone])

/-- `NODE_MIGRATION_MAP`, keyed by retired kind. -/
def NODE_MIGRATION_MAP : List (Str × (MetaDict → MetaDict)) :=
  [(str "compile_commands_op", migrate_compile_commands_op)]

/-- Failure modes of the loader's migration loop in `Node._get`. -/
inductive LoadKindErr where
  | unknownKind (kind : Str)
  | unknownKindMigratedFrom (kind orig : Str)
  | missingKindAfterMigration (prev : Str)
  | looping
deriving DecidableEq

/-- The migration loop of `Node._get`, with an explicit iteration bound:
`while (cls := NODE_KIND_MAP.get(cls_name)) is None` looks up a migration
for the current kind; none → `KeyError` (naming the original kind, with
the "migrated from" wording once at least one migration has run); some →
apply it, then re-read `kind` (missing → error).  The loop has no cycle
detection, so exhausting `fuel` (result `.error .looping`) stands for the
`while` loop still running after that many iterations. -/
def resolve_kind (kinds : List Str) (migs : List (Str × (MetaDict → MetaDict)))
    (orig : Str) : Nat → Str → MetaDict → Except LoadKindErr (Str × MetaDict)
  | 0, _, _ => .error .looping
  | fuel + 1, clsName, md =>
      if kinds.contains clsName then .ok (clsName, md)
      else
        match migs.lookup clsName with
        | none =>
            if clsName = orig then .error (.unknownKind clsName)
            else .error (.unknownKindMigratedFrom clsName orig)
        | some f =>
            let md' := f md
            match md'.lookup (str "kind") with
            | some (.vstr newName) => resolve_kind kinds migs orig fuel newName md'
            | _ => .error (.missingKindAfterMigration clsName)

/-- The loop never finishes on this input: every iteration bound is
exhausted with the loop still running. -/
def resolveDiverges (kinds : List Str) (migs : List (Str × (MetaDict → MetaDict)))
    (orig clsName : Str) (md : MetaDict) : Prop :=
  ∀ fuel, resolve_kind kinds migs orig fuel clsName md = .error .looping

/-- A registry with a cycle between two retired kinds. -/
def cycleMigs : List (Str × (MetaDict → MetaDict)) :=
  [(str "A", fun md => dictSet md (str "kind") (.vstr (str "B"))),
   (str "B", fun md => dictSet md (str "kind") (.vstr (str "A")))]

/-- C7 counterexample: with a cyclic migration registry (two retired kinds
whose migrations point at each other), loading a node of kind `A`
diverges — for every iteration bound the loop is still running, and no
load-time error is ever raised.  This refutes "a cycle among retired
kinds in the migration registry produces a load-time fatal error rather
than non-termination". -/
theorem migration_cycle_diverges :
    resolveDiverges NODE_KINDS cycleMigs (str "A") (str "A")
      [(str "kind", .vstr (str "A"))] := by
  intro fuel
  have key : ∀ f : Nat,
      resolve_kind NODE_KINDS cycleMigs (str "A") f (str "A")
        [(str "kind", .vstr (str "A"))] = .error .looping ∧
      resolve_kind NODE_KINDS cycleMigs (str "A") f (str "B")
        [(str "kind", .vstr (str "B"))] = .error .looping := by
    intro f
    induction f with
    | zero => exact ⟨rfl, rfl⟩
    | succ f ih =>
        constructor
        · have hstep : resolve_kind NODE_KINDS cycleMigs (str "A") (f + 1) (str "A")
              [(str "kind", .vstr (str "A"))] =
              resolve_kind NODE_KINDS cycleMigs (str "A") f (str "B")
                [(str "kind", .vstr (str "B"))] := rfl
          rw [hstep]
          exact ih.2
        · have hstep : resolve_kind NODE_KINDS cycleMigs (str "A") (f + 1) (str "B")
              [(str "kind", .vstr (str "B"))] =
              resolve_kind NODE_KINDS cycleMigs (str "A") f (str "A")
                [(str "kind", .vstr (str "A"))] := rfl
          rw [hstep]
          exact ih.1
  exact (key fuel).1

/-- After a `dictSet` via the in-place branch, looking up the set key
finds the new value. -/
theorem lookup_map_set : ∀ (md : MetaDict) (k : Str) (v : Value),
    md.any (fun p => decide (p.1 = k)) = true →
    (md.map (fun p => if p.1 = k then (k, v) else p)).lookup k = some v
  | [], k, v, h => by simp at h
  | p :: md, k, v, h => by
      by_cases hp : p.1 = k
      · rw [List.map_cons, if_pos hp]
        simp [List.lookup]
      · rw [List.map_cons, if_neg hp]
        have hany : md.any (fun p => decide (p.1 = k)) = true := by
          simp only [List.any_cons, Bool.or_eq_true, decide_eq_true_eq] at h
          exact h.resolve_left hp
        have hbeq : (k == p.1) = false := by
          simp [beq_eq_false_iff_ne]
          exact fun hc => hp hc.symm
        simp only [List.lookup, hbeq]
        exact lookup_map_set md k v hany

/-- Looking up the appended pair when the key was absent. -/
theorem lookup_append_set : ∀ (md : MetaDict) (k : Str) (v : Value),
    md.any (fun p => decide (p.1 = k)) = false →
    (md ++ [(k, v)]).lookup k = some v
  | [], k, v, _ => by simp [List.lookup]
  | p :: md, k, v, h => by
      simp only [List.any_cons, Bool.or_eq_false_iff, decide_eq_false_iff_not] at h
      have hbeq : (k == p.1) = false := by
        simp [beq_eq_false_iff_ne]
        exact fun hc => h.1 hc.symm
      rw [List.cons_append]
      simp only [List.lookup, hbeq]
      exact lookup_append_set md k v h.2

/-- `dictSet` makes the set key map to the new value. -/
theorem dictSet_lookup (md : MetaDict) (k : Str) (v : Value) :
    (dictSet md k v).lookup k = some v := by
  unfold dictSet
  split
  · next h => exact lookup_map_set md k v h
  · next h =>
      exact lookup_append_set md k v (by simp only [Bool.not_eq_true] at h; exact h)

/-- `dictSet` leaves the bindings of every other key unchanged. -/
theorem dictSet_lookup_ne : ∀ (md : MetaDict) (k k' : Str) (v : Value), k' ≠ k →
    (dictSet md k v).lookup k' = md.lookup k'
  | md, k, k', v, h => by
      unfold dictSet
      split
      · next hany =>
          clear hany
          induction md with
          | nil => rfl
          | cons p md ih =>
              by_cases hp : p.1 = k
              · rw [List.map_cons, if_pos hp]
                have hbeq : (k' == k) = false := by
                  simp [beq_eq_false_iff_ne, h]
                have hbeq' : (k' == p.1) = false := by rw [hp]; exact hbeq
                simp only [List.lookup, hbeq, hbeq']
                exact ih
              · rw [List.map_cons, if_neg hp]
                cases hbeq : (k' == p.1) with
                | true => simp only [List.lookup, hbeq]
                | false =>
                    simp only [List.lookup, hbeq]
                    exact ih
      · next hany =>
          clear hany
          induction md with
          | nil =>
              have hbeq : (k' == k) = false := by
                simp [beq_eq_false_iff_ne, h]
              simp [List.lookup, hbeq]
          | cons p md ih =>
              rw [List.cons_append]
              cases hbeq : (k' == p.1) with
              | true => simp only [List.lookup, hbeq]
              | false =>
                  simp only [List.lookup, hbeq]
                  exact ih

/-- Removing one key (the `filter` part of `dictPop`) leaves the bindings
of every other key unchanged. -/
theorem filter_lookup_ne : ∀ (md : MetaDict) (k k' : Str), k' ≠ k →
    (md.filter (fun p => !(decide (p.1 = k)))).lookup k' = md.lookup k'
  | [], k, k', h => rfl
  | p :: md, k, k', h => by
      by_cases hp : p.1 = k
      · rw [List.filter_cons_of_neg (by simp [hp])]
        have hbeq : (k' == p.1) = false := by
          rw [hp]
          simp [beq_eq_false_iff_ne, h]
        simp only [List.lookup, hbeq]
        exact filter_lookup_ne md k k' h
      · rw [List.filter_cons_of_pos (by simp [hp])]
        cases hbeq : (k' == p.1) with
        | true => simp only [List.lookup, hbeq]
        | false =>
            simp only [List.lookup, hbeq]
            exact filter_lookup_ne md k k' h

/-- The migrated metadata always carries `kind = "compile_commands_op_v2"`. -/
theorem migrate_kind_lookup (md : MetaDict) :
    (migrate_compile_commands_op md).lookup (str "kind") =
      some (.vstr (str "compile_commands_op_v2")) := by
  unfold migrate_compile_commands_op
  rw [dictSet_lookup_ne _ _ _ _ (by decide)]
  show (List.filter _ _).lookup _ = _
  rw [filter_lookup_ne _ _ _ (by decide)]
  exact dictSet_lookup md (str "kind") _

/-! ### C10: node id lookup by hex prefix -/

/-- The lowercase hex digits, as produced by Python's `bytes.hex()`. -/
def hexDigitChars : Str := str "0123456789abcdef"

/-- One byte as two lowercase hex characters. -/
def hexOfByte (b : Nat) : Str :=
  [hexDigitChars.getD (b / 16 % 16) (Char.ofNat 120),
   hexDigitChars.getD (b % 16) (Char.ofNat 120)]

/-- `bytes.hex()`: each byte as two lowercase hex characters. -/
def hexOfBytes (bs : List Nat) : Str := bs.flatMap hexOfByte

/-- The value of a single hex character, upper or lower case, as accepted
by `int(s, 16)`. -/
def hexVal (c : Char) : Option Nat :=
  let n := c.toNat
  if 48 ≤ n ∧ n ≤ 57 then some (n - 48)
  else if 97 ≤ n ∧ n ≤ 102 then some (n - 87)
  else if 65 ≤ n ∧ n ≤ 70 then some (n - 55)
  else none

/-- Decode a string of hex-digit pairs into bytes; `none` models the
`ValueError` raised by `int(s[i:i+2], 16)` on a non-hex pair. -/
def hexPairs : Str → Option (List Nat)
  | [] => some []
  | [_] => none
  | c1 :: c2 :: rest =>
      match hexVal c1, hexVal c2, hexPairs rest with
      | some h, some l, some bs => some ((h * 16 + l) :: bs)
      | _, _, _ => none

/-- Errors surfaced by the id-lookup path. -/
inductive LookupErr where
  | valueError
deriving DecidableEq

/-- `NodeId.from_str`: demands exactly `2 * LENGTH` characters
(`ValueError` otherwise) and decodes consecutive hex pairs. -/
def NodeId.from_str (s : Str) : Except LookupErr NodeId :=
  if s.length = 2 * NodeId.LENGTH then
    match hexPairs s with
    | some bs => .ok ⟨bs⟩
    | none => .error .valueError
  else .error .valueError

/-- A Python list comprehension over fallible elements: left to right,
stopping at the first raised exception. -/
def mapExcept (f : α → Except ε β) : List α → Except ε (List β)
  | [] => .ok []
  | x :: xs => do
      let y ← f x
      let ys ← mapExcept f xs
      pure (y :: ys)

/-- `os.listdir(os.path.join(path, 'nodes', first))` over a store whose
on-disk ids are `nodes`.  `Node._create` makes shard directories with
`os.makedirs`, so a shard directory exists exactly when some stored node
lives in it, and `nodes/` itself exists exactly when the store holds a
node; `none` models `OSError`.  When `first = ""` the path names the
`nodes/` directory itself, whose entries are the shard directories. -/
def listNodesDir (nodes : List NodeId) (first : Str) : Option (List Str) :=
  if first.isEmpty then
    if nodes.isEmpty then none
    else some ((nodes.map (fun n => hexOfBytes (n.raw.take 1))).dedup)
  else if (nodes.map (fun n => hexOfBytes (n.raw.take 1))).contains first then
    some ((nodes.filter (fun n => decide (hexOfBytes (n.raw.take 1) = first))).map
      (fun n => hexOfBytes (n.raw.drop 1)))
  else none

/-- `MVIR.node_ids_with_prefix`: lowercase the query, split it into a
two-character shard-directory name and a remainder, list that directory
(`OSError` → `[]`), and run `NodeId.from_str(first + name)` on every
entry whose name starts with the remainder. -/
def node_ids_with_pfx (nodes : List NodeId) (s : Str) : Except LookupErr (List NodeId) :=
  let sl := s.map Char.toLower
  let first := sl.take 2
  let rest := sl.drop 2
  match listNodesDir nodes first with
  | none => .ok []
  | some fileNames =>
      mapExcept (fun name => NodeId.from_str (first ++ name))
        (fileNames.filter (fun name => rest.isPrefixOf name))

/-- A store holding a single node. -/
def pfxStore : List NodeId := [⟨List.replicate 32 171⟩]

/-- C10 counterexample: on a store holding a node, the empty query names
the `nodes/` directory itself, which exists; the listing yields the
two-character shard directory names, and `NodeId.from_str` then raises
`ValueError` (2 characters instead of 64).  The claim says the lookup
returns the stored ids whose hex form begins with the (empty) query —
here every stored id — instead of raising. -/
theorem empty_query_value_error :
    node_ids_with_pfx pfxStore [] = .error .valueError ∧
    (∀ n ∈ pfxStore, ([] : Str).isPrefixOf (hexOfBytes n.raw) = true) :=
  ⟨rfl, by decide⟩

/-- Each hex digit decodes back to its value. -/
theorem digit_val : ∀ n, n < 16 → hexVal (hexDigitChars.getD n (Char.ofNat 120)) = some n := by
  decide

/-- Decoding after encoding one byte peels it off. -/
theorem hexPairs_hexOfByte (b : Nat) (hb : b < 256) (rest : Str) :
    hexPairs (hexOfByte b ++ rest) = (hexPairs rest).map (fun bs => b :: bs) := by
  show (match hexVal (hexDigitChars.getD (b / 16 % 16) (Char.ofNat 120)),
          hexVal (hexDigitChars.getD (b % 16) (Char.ofNat 120)), hexPairs rest with
        | some h, some l, some bs => some ((h * 16 + l) :: bs)
        | _, _, _ => none) = (hexPairs rest).map (fun bs => b :: bs)
  rw [digit_val (b / 16 % 16) (Nat.mod_lt _ (by omega)),
    digit_val (b % 16) (Nat.mod_lt _ (by omega))]
  have hbv : b / 16 % 16 * 16 + b % 16 = b := by omega
  cases hexPairs rest with
  | none => rfl
  | some bs =>
      show some ((b / 16 % 16 * 16 + b % 16) :: bs) = some (b :: bs)
      rw [hbv]

/-- Full hex roundtrip for byte strings. -/
theorem hexPairs_hexOfBytes : ∀ (bs : List Nat), (∀ b ∈ bs, b < 256) →
    hexPairs (hexOfBytes bs) = some bs
  | [], _ => rfl
  | b :: bs, h => by
      show hexPairs (hexOfByte b ++ hexOfBytes bs) = _
      rw [hexPairs_hexOfByte b (h b (List.mem_cons_self b bs)),
        hexPairs_hexOfBytes bs (fun x hx => h x (List.mem_cons_of_mem b hx))]
      rfl

/-- The hex form of a byte string has two characters per byte. -/
theorem hexOfBytes_length : ∀ bs : List Nat, (hexOfBytes bs).length = 2 * bs.length
  | [] => rfl
  | b :: bs => by
      show (hexOfByte b ++ hexOfBytes bs).length = 2 * (bs.length + 1)
      rw [List.length_append, hexOfBytes_length bs]
      show 2 + 2 * bs.length = 2 * (bs.length + 1)
      omega

/-- The hex form splits at the shard boundary. -/
theorem hexOfBytes_take_drop (bs : List Nat) :
    hexOfBytes bs = hexOfBytes (bs.take 1) ++ hexOfBytes (bs.drop 1) := by
  cases bs with
  | nil => rfl
  | cons b bs =>
      show hexOfByte b ++ hexOfBytes bs = (hexOfByte b ++ []) ++ hexOfBytes bs
      rw [List.append_nil]

/-- Parsing the hex form of a well-formed id returns the id. -/
theorem from_str_hex (n : NodeId) (hlen : n.raw.length = 32)
    (hbytes : ∀ b ∈ n.raw, b < 256) :
    NodeId.from_str (hexOfBytes n.raw) = .ok n := by
  unfold NodeId.from_str
  rw [if_pos (by rw [hexOfBytes_length, hlen]; rfl),
    hexPairs_hexOfBytes n.raw hbytes]

/-- Prefix tests distribute over appends of equal length. -/
theorem isPfxOf_split : ∀ (p a : Str), p.length = a.length → ∀ (q b : Str),
    ((p ++ q).isPrefixOf (a ++ b)) = (decide (p = a) && q.isPrefixOf b)
  | [], [], _, q, b => by simp
  | [], _ :: _, h, _, _ => by simp at h
  | _ :: _, [], h, _, _ => by simp at h
  | c :: p, d :: a, h, q, b => by
      show ((c == d) && (p ++ q).isPrefixOf (a ++ b)) = _
      rw [isPfxOf_split p a (by simpa using h) q b]
      have hdc : decide (c :: p = d :: a) = (decide (c = d) && decide (p = a)) := by
        by_cases hcd : c = d <;> by_cases hpa : p = a <;> simp [hcd, hpa]
      rw [hdc]
      by_cases hcd : c = d
      · subst hcd
        simp
      · have h1 : (c == d) = false := by simp [hcd]
        have h2 : decide (c = d) = false := by simp [hcd]
        rw [h1, h2]
        simp

/-- The shard-and-remainder test used by the lookup agrees with a plain
prefix test on the full hex form, for well-formed ids. -/
theorem pfx_cond (n : NodeId) (sl : Str) (h2 : 2 ≤ sl.length)
    (hlen : n.raw.length = 32) :
    (decide (hexOfBytes (n.raw.take 1) = sl.take 2) &&
      (sl.drop 2).isPrefixOf (hexOfBytes (n.raw.drop 1))) =
    sl.isPrefixOf (hexOfBytes n.raw) := by
  have hlt : (sl.take 2).length = (hexOfBytes (n.raw.take 1)).length := by
    rw [List.length_take, hexOfBytes_length, List.length_take, hlen]
    omega
  conv_rhs => rw [← List.take_append_drop 2 sl, hexOfBytes_take_drop n.raw]
  rw [isPfxOf_split _ _ hlt]
  by_cases he : hexOfBytes (n.raw.take 1) = sl.take 2
  · rw [he]
  · have h1 : decide (hexOfBytes (n.raw.take 1) = sl.take 2) = false := by
      rw [decide_eq_false_iff_not]
      exact he
    have h1' : decide (sl.take 2 = hexOfBytes (n.raw.take 1)) = false := by
      rw [decide_eq_false_iff_not]
      exact fun hc => he hc.symm
    rw [h1, h1']

/-- A raised exception at the head aborts the whole comprehension. -/
theorem mapExcept_head_err (f : α → Except ε β) (x : α) (xs : List α) (e : ε)
    (h : f x = .error e) : mapExcept f (x :: xs) = .error e := by
  unfold mapExcept
  rw [h]
  rfl

/-- Parsing `first + name` over remainder names recovers the nodes of a
shard whose hex form starts with `first`. -/
theorem mapExcept_from_str : ∀ (l : List NodeId) (first : Str),
    (∀ n ∈ l, n.raw.length = 32 ∧ (∀ b ∈ n.raw, b < 256) ∧
      hexOfBytes (n.raw.take 1) = first) →
    mapExcept (fun name => NodeId.from_str (first ++ name))
      (l.map (fun n => hexOfBytes (n.raw.drop 1))) = .ok l
  | [], first, _ => rfl
  | n :: l, first, h => by
      obtain ⟨hlen, hb, hsh⟩ := h n (List.mem_cons_self n l)
      have hhead : NodeId.from_str (first ++ hexOfBytes (n.raw.drop 1)) = .ok n := by
        rw [← hsh, ← hexOfBytes_take_drop]
        exact from_str_hex n hlen hb
      have hrec := mapExcept_from_str l first (fun x hx => h x (List.mem_cons_of_mem n hx))
      show mapExcept _ (hexOfBytes (n.raw.drop 1) :: l.map _) = _
      unfold mapExcept
      rw [hhead]
      simp only [hrec]
      rfl

/-- C10 amended: `node_ids_with_prefix` lowercases its query first; for
queries of at least two characters it returns exactly the stored ids
whose full hex form begins with the lowercased query (the empty list
when the shard directory is missing, which is exactly when no stored id
matches); for one-character queries it always returns the empty list,
because the directory named by a single character never exists even when
matching ids are stored; and for the empty query on a nonempty store it
raises `ValueError`, because the `nodes/` directory itself exists and its
two-character shard entries fail `NodeId.from_str`. -/
theorem hex_pfx_lookup (nodes : List NodeId) (s : Str)
    (hvalid : ∀ n ∈ nodes, n.raw.length = 32 ∧ ∀ b ∈ n.raw, b < 256) :
    (2 ≤ s.length →
      node_ids_with_pfx nodes s =
        .ok (nodes.filter (fun n => (s.map Char.toLower).isPrefixOf (hexOfBytes n.raw)))) ∧
    (s.length = 1 → node_ids_with_pfx nodes s = .ok []) ∧
    (s = [] → nodes ≠ [] → node_ids_with_pfx nodes s = .error .valueError) := by
  refine ⟨fun hs => ?_, fun hs => ?_, fun hs hne => ?_⟩
  · simp only [node_ids_with_pfx, listNodesDir]
    have hslen : (s.map Char.toLower).length = s.length := List.length_map s Char.toLower
    have hne2 : ((s.map Char.toLower).take 2).isEmpty = false := by
      have hl2 : ((s.map Char.toLower).take 2).length = 2 := by
        rw [List.length_take, hslen]
        omega
      cases htk : (s.map Char.toLower).take 2 with
      | nil => rw [htk] at hl2; simp at hl2
      | cons a l => rfl
    rw [hne2, if_neg Bool.false_ne_true]
    by_cases hct : ((nodes.map (fun n => hexOfBytes (n.raw.take 1))).contains
        ((s.map Char.toLower).take 2)) = true
    · rw [if_pos hct]
      dsimp only
      rw [List.filter_map]
      rw [List.filter_filter]
      have hfeq : nodes.filter
          (fun n => ((fun name => ((s.map Char.toLower).drop 2).isPrefixOf name) ∘
              (fun n => hexOfBytes (n.raw.drop 1))) n &&
            decide (hexOfBytes (n.raw.take 1) = (s.map Char.toLower).take 2)) =
          nodes.filter (fun n => (s.map Char.toLower).isPrefixOf (hexOfBytes n.raw)) := by
        apply List.filter_congr
        intro n hn
        rw [Bool.and_comm]
        exact pfx_cond n (s.map Char.toLower) (by omega) (hvalid n hn).1
      rw [hfeq]
      apply mapExcept_from_str
      intro n hn
      have hmem := (List.mem_filter.mp hn).1
      have hpf := (List.mem_filter.mp hn).2
      refine ⟨(hvalid n hmem).1, (hvalid n hmem).2, ?_⟩
      have := pfx_cond n (s.map Char.toLower) (by omega) (hvalid n hmem).1
      rw [hpf] at this
      rw [Bool.and_eq_true] at this
      exact decide_eq_true_eq.mp this.1
    · rw [if_neg hct]
      dsimp only
      have hfe : nodes.filter
          (fun n => (s.map Char.toLower).isPrefixOf (hexOfBytes n.raw)) = [] := by
        apply List.filter_eq_nil_iff.mpr
        intro n hn hp
        have := pfx_cond n (s.map Char.toLower) (by omega) (hvalid n hn).1
        rw [hp] at this
        rw [Bool.and_eq_true] at this
        have hsh := decide_eq_true_eq.mp this.1
        apply hct
        have hm : (s.map Char.toLower).take 2 ∈
            nodes.map (fun n => hexOfBytes (n.raw.take 1)) := by
          exact List.mem_map.mpr ⟨n, hn, hsh⟩
        simpa using hm
      rw [hfe]
  · simp only [node_ids_with_pfx, listNodesDir]
    have hslen : (s.map Char.toLower).length = 1 := by
      rw [List.length_map]
      exact hs
    have hne2 : ((s.map Char.toLower).take 2).isEmpty = false := by
      have hl2 : ((s.map Char.toLower).take 2).length = 1 := by
        rw [List.length_take, hslen]
        decide
      cases htk : (s.map Char.toLower).take 2 with
      | nil => rw [htk] at hl2; simp at hl2
      | cons a l => rfl
    rw [hne2, if_neg Bool.false_ne_true]
    have hct : ((nodes.map (fun n => hexOfBytes (n.raw.take 1))).contains
        ((s.map Char.toLower).take 2)) = false := by
      rw [Bool.eq_false_iff]
      intro hc
      have hm : (s.map Char.toLower).take 2 ∈
          nodes.map (fun n => hexOfBytes (n.raw.take 1)) := by
        simpa using hc
      obtain ⟨n, hn, heq⟩ := List.mem_map.mp hm
      have h2 := hexOfBytes_length (n.raw.take 1)
      rw [heq] at h2
      rw [List.length_take, List.length_take, (hvalid n hn).1, hslen] at h2
      omega
    rw [hct, if_neg Bool.false_ne_true]
  · subst hs
    simp only [node_ids_with_pfx, listNodesDir, List.map_nil, List.take_nil,
      List.drop_nil, List.isEmpty_nil, if_true]
    have hni : nodes.isEmpty = false := by
      cases nodes with
      | nil => exact absurd rfl hne
      | cons a l => rfl
    rw [hni, if_neg Bool.false_ne_true]
    cases hsd : (nodes.map (fun n => hexOfBytes (n.raw.take 1))).dedup with
    | nil =>
        exfalso
        cases nodes with
        | nil => exact hne rfl
        | cons m l =>
            have hm : hexOfBytes (m.raw.take 1) ∈
                ((m :: l).map (fun n => hexOfBytes (n.raw.take 1))).dedup :=
              List.mem_dedup.mpr (List.mem_map_of_mem _ (List.mem_cons_self m l))
            rw [hsd] at hm
            exact absurd hm (List.not_mem_nil _)
    | cons nm rest =>
        have hnm : nm ∈ nodes.map (fun n => hexOfBytes (n.raw.take 1)) := by
          apply List.mem_dedup.mp
          rw [hsd]
          exact List.mem_cons_self nm rest
        obtain ⟨n, hn, heq⟩ := List.mem_map.mp hnm
        have hl2 : nm.length = 2 := by
          rw [← heq, hexOfBytes_length, List.length_take, (hvalid n hn).1]
          decide
        dsimp only
        rw [List.filter_cons_of_pos (by simp)]
        apply mapExcept_head_err
        show NodeId.from_str nm = .error .valueError
        unfold NodeId.from_str
        rw [if_neg (by rw [hl2]; decide)]

/-- Witness: on a store holding the id `abab…ab`, the query "AB" is
lowercased and matches. -/
theorem hex_pfx_lookup_witness :
    (∀ n ∈ pfxStore, n.raw.length = 32 ∧ ∀ b ∈ n.raw, b < 256) ∧
    node_ids_with_pfx pfxStore (str "AB") =
      .ok (pfxStore.filter
        (fun n => ((str "AB").map Char.toLower).isPrefixOf (hexOfBytes n.raw))) :=
  ⟨by decide, (hex_pfx_lookup pfxStore (str "AB") (by decide)).1 (by decide)⟩

/-- C7 amended: with the repository's actual registry — the single
migration `compile_commands_op → compile_commands_op_v2` — every load
terminates within two iterations: a registered kind loads unchanged, the
retired `compile_commands_op` migrates once to the registered v2 kind,
and any other kind fails at once with an error naming it.  The loop
itself has no cycle detection, so termination rests on the registry:
`migration_cycle_diverges` shows a cyclic registry makes the loader spin
forever instead of raising a load-time error. -/
theorem migration_terminates (clsName : Str) (md : MetaDict) (fuel : Nat)
    (hf : 2 ≤ fuel) :
    resolve_kind NODE_KINDS NODE_MIGRATION_MAP clsName fuel clsName md ≠
      .error .looping ∧
    (NODE_KINDS.contains clsName = true →
      resolve_kind NODE_KINDS NODE_MIGRATION_MAP clsName fuel clsName md =
        .ok (clsName, md)) ∧
    (clsName = str "compile_commands_op" →
      resolve_kind NODE_KINDS NODE_MIGRATION_MAP clsName fuel clsName md =
        .ok (str "compile_commands_op_v2", migrate_compile_commands_op md)) ∧
    (NODE_KINDS.contains clsName = false → clsName ≠ str "compile_commands_op" →
      resolve_kind NODE_KINDS NODE_MIGRATION_MAP clsName fuel clsName md =
        .error (.unknownKind clsName)) := by
  obtain ⟨f, rfl⟩ : ∃ f, fuel = f + 2 := ⟨fuel - 2, by omega⟩
  by_cases hreg : NODE_KINDS.contains clsName = true
  · have hok : resolve_kind NODE_KINDS NODE_MIGRATION_MAP clsName (f + 2) clsName md =
        .ok (clsName, md) := by
      unfold resolve_kind
      rw [if_pos hreg]
    refine ⟨by simp [hok], fun _ => hok, fun hcc => ?_, fun hf1 _ => ?_⟩
    · subst hcc
      exact absurd hreg (by decide)
    · rw [hreg] at hf1
      exact Bool.noConfusion hf1
  · have hreg' : NODE_KINDS.contains clsName = false := by
      cases h : NODE_KINDS.contains clsName with
      | true => exact absurd h hreg
      | false => rfl
    by_cases hcc : clsName = str "compile_commands_op"
    · subst hcc
      have hstep : resolve_kind NODE_KINDS NODE_MIGRATION_MAP
          (str "compile_commands_op") (f + 2) (str "compile_commands_op") md =
          match (migrate_compile_commands_op md).lookup (str "kind") with
          | some (.vstr newName) =>
              resolve_kind NODE_KINDS NODE_MIGRATION_MAP (str "compile_commands_op")
                (f + 1) newName (migrate_compile_commands_op md)
          | _ => .error (.missingKindAfterMigration (str "compile_commands_op")) := rfl
      have hfin : resolve_kind NODE_KINDS NODE_MIGRATION_MAP (str "compile_commands_op")
          (f + 1) (str "compile_commands_op_v2") (migrate_compile_commands_op md) =
          .ok (str "compile_commands_op_v2", migrate_compile_commands_op md) := by
        unfold resolve_kind
        rw [if_pos (by decide)]
      have hres : resolve_kind NODE_KINDS NODE_MIGRATION_MAP
          (str "compile_commands_op") (f + 2) (str "compile_commands_op") md =
          .ok (str "compile_commands_op_v2", migrate_compile_commands_op md) := by
        rw [hstep, migrate_kind_lookup md]
        exact hfin
      exact ⟨by simp [hres], fun hr => absurd hr (by decide), fun _ => hres,
        fun _ hc => absurd rfl hc⟩
    · have hbeq : (clsName == str "compile_commands_op") = false := by
        simp [beq_eq_false_iff_ne]
        exact hcc
      have hlk : NODE_MIGRATION_MAP.lookup clsName = none := by
        simp only [NODE_MIGRATION_MAP, List.lookup, hbeq]
      have hres : resolve_kind NODE_KINDS NODE_MIGRATION_MAP clsName (f + 2) clsName md =
          .error (.unknownKind clsName) := by
        unfold resolve_kind
        rw [if_neg (by rw [hreg']; exact Bool.false_ne_true)]
        rw [hlk]
        dsimp only
        rw [if_pos rfl]
      refine ⟨by simp [hres], fun hr => ?_, fun hc => absurd hc hcc, fun _ _ => hres⟩
      rw [hreg'] at hr
      exact Bool.noConfusion hr

/-- Witness: a concrete `compile_commands_op` node migrates in one step
with two iterations of fuel. -/
theorem migration_terminates_witness :
    2 ≤ 2 ∧
    resolve_kind NODE_KINDS NODE_MIGRATION_MAP (str "compile_commands_op") 2
        (str "compile_commands_op") [(str "cmd", Value.vstr (str "gcc"))] =
      .ok (str "compile_commands_op_v2",
        migrate_compile_commands_op [(str "cmd", Value.vstr (str "gcc"))]) :=
  ⟨by decide, (migration_terminates (str "compile_commands_op")
    [(str "cmd", Value.vstr (str "gcc"))] 2 (by decide)).2.2.1 rfl⟩

/-! ### C4: the `analysis` memoization decorator -/

/-- A candidate result node as the decorator sees it: its id, its kind
tag, and its metadata fields with values already normalized the way
`arg_matches` normalizes bound arguments (a `Node` argument is replaced
by its `NodeId`; all other values compare by `==`).  The value type is
abstract. -/
structure ANode (α : Type) where
  nid : NodeId
  kind : Str
  fields : List (Str × α)

/-- Failure modes of the decorator. -/
inductive AnalysisErr where
  | candidateKindMismatch
  | resultKindMismatch
  | resultFieldMismatch
  | multipleMatches
deriving DecidableEq

/-- `arg_matches(n, k)`: the bound argument `k` equals field `k` of `n`. -/
def argMatches {α : Type} [DecidableEq α] (args : List (Str × α)) (n : ANode α)
    (k : Str) : Bool :=
  decide (args.lookup k = n.fields.lookup k)

/-- The candidate-collection loop of the decorator: walk the index
entries for the key argument's id, keep only entries recorded under this
analysis's result kind and index parameter name, load each candidate
(`assert isinstance(candidate_n, node_type)`), and keep those whose
fields all match the bound arguments. -/
def collectFound {α : Type} [DecidableEq α] (kind idxKey : Str)
    (matchFields : List Str) (args : List (Str × α)) (load : NodeId → ANode α) :
    List IndexEntry → Except AnalysisErr (List (ANode α))
  | [] => .ok []
  | e :: es =>
      if e.kind = kind ∧ e.key = idxKey then
        let n := load e.node_id
        if n.kind = kind then
          if matchFields.all (argMatches args n) then
            (collectFound kind idxKey matchFields args load es).map (fun rest => n :: rest)
          else collectFound kind idxKey matchFields args load es
        else .error .candidateKindMismatch
      else collectFound kind idxKey matchFields args load es

/-- The wrapper `g`: one match → return it without running `f`; zero →
run `f` (its result is `fRes`), assert its kind and that every bound
argument equals the corresponding result field; several → `ValueError`. -/
def analysisWrap {α : Type} [DecidableEq α] (kind idxKey : Str)
    (matchFields : List Str) (args : List (Str × α)) (load : NodeId → ANode α)
    (entries : List IndexEntry) (fRes : ANode α) : Except AnalysisErr (ANode α) :=
  match collectFound kind idxKey matchFields args load entries with
  | .error e => .error e
  | .ok [n] => .ok n
  | .ok [] =>
      if fRes.kind = kind then
        if matchFields.all (argMatches args fRes) then .ok fRes
        else .error .resultFieldMismatch
      else .error .resultKindMismatch
  | .ok _ => .error .multipleMatches

/-- Every collected candidate carries the result kind and matches every
bound argument field. -/
theorem collectFound_matches {α : Type} [DecidableEq α] (kind idxKey : Str)
    (matchFields : List Str) (args : List (Str × α)) (load : NodeId → ANode α) :
    ∀ (entries : List IndexEntry) (found : List (ANode α)),
      collectFound kind idxKey matchFields args load entries = .ok found →
      ∀ n ∈ found, n.kind = kind ∧ matchFields.all (argMatches args n) = true
  | [], found, h => by
      cases h
      intro n hn
      exact absurd hn (List.not_mem_nil n)
  | e :: es, found, h => by
      rw [collectFound] at h
      split at h
      · dsimp only at h
        split at h
        · split at h
          · cases hrec : collectFound kind idxKey matchFields args load es with
            | error err => rw [hrec] at h; exact Except.noConfusion h
            | ok rest =>
                rw [hrec] at h
                cases h
                intro n hn
                rcases List.mem_cons.mp hn with hn | hn
                · subst hn
                  next hkind hall => exact ⟨hkind, hall⟩
                · exact collectFound_matches kind idxKey matchFields args load es rest
                    hrec n hn
          · exact collectFound_matches kind idxKey matchFields args load es found h
        · exact Except.noConfusion h
      · exact collectFound_matches kind idxKey matchFields args load es found h

/-- C4: the decorator's dispatch.  Zero matching candidates → the wrapped
function runs and its result is returned after asserting its kind and
that every bound argument equals the corresponding result field (any
mismatch is a hard error); exactly one match → that node is returned
unchanged, for every possible would-be result of the wrapped function
(so without executing it); several matches → the hard `ValueError`;
and any returned node — cached or computed — matches every bound
argument field, so a call that collides on the index-key argument but
differs on another bound field never returns a cached node. -/
theorem analysis_memoization {α : Type} [DecidableEq α] (kind idxKey : Str)
    (matchFields : List Str) (args : List (Str × α)) (load : NodeId → ANode α)
    (entries : List IndexEntry) :
    (∀ fRes, collectFound kind idxKey matchFields args load entries = .ok [] →
      fRes.kind = kind → matchFields.all (argMatches args fRes) = true →
      analysisWrap kind idxKey matchFields args load entries fRes = .ok fRes) ∧
    (∀ fRes, collectFound kind idxKey matchFields args load entries = .ok [] →
      (¬ fRes.kind = kind ∨ ¬ matchFields.all (argMatches args fRes) = true) →
      ∃ e, analysisWrap kind idxKey matchFields args load entries fRes = .error e) ∧
    (∀ n fRes, collectFound kind idxKey matchFields args load entries = .ok [n] →
      analysisWrap kind idxKey matchFields args load entries fRes = .ok n) ∧
    (∀ n1 n2 rest fRes,
      collectFound kind idxKey matchFields args load entries = .ok (n1 :: n2 :: rest) →
      analysisWrap kind idxKey matchFields args load entries fRes =
        .error .multipleMatches) ∧
    (∀ n fRes, analysisWrap kind idxKey matchFields args load entries fRes = .ok n →
      n.kind = kind ∧ matchFields.all (argMatches args n) = true) := by
  refine ⟨?_, ?_, ?_, ?_, ?_⟩
  · intro fRes h0 hk hm
    unfold analysisWrap
    rw [h0]
    dsimp only
    rw [if_pos hk, if_pos hm]
  · intro fRes h0 hbad
    unfold analysisWrap
    rw [h0]
    dsimp only
    rcases hbad with hk | hm
    · rw [if_neg hk]
      exact ⟨.resultKindMismatch, rfl⟩
    · by_cases hk2 : fRes.kind = kind
      · rw [if_pos hk2, if_neg hm]
        exact ⟨.resultFieldMismatch, rfl⟩
      · rw [if_neg hk2]
        exact ⟨.resultKindMismatch, rfl⟩
  · intro n fRes h1
    unfold analysisWrap
    rw [h1]
  · intro n1 n2 rest fRes h2
    unfold analysisWrap
    rw [h2]
  · intro n fRes h
    unfold analysisWrap at h
    cases hcf : collectFound kind idxKey matchFields args load entries with
    | error e =>
        rw [hcf] at h
        exact Except.noConfusion h
    | ok found =>
        rw [hcf] at h
        cases found with
        | nil =>
            dsimp only at h
            split at h
            · split at h
              · cases h
                next hk hm => exact ⟨hk, hm⟩
              · exact Except.noConfusion h
            · exact Except.noConfusion h
        | cons a as =>
            cases as with
            | nil =>
                cases h
                exact collectFound_matches kind idxKey matchFields args load entries
                  [n] hcf n (List.mem_cons_self n [])
            | cons b bs => exact Except.noConfusion h

/-- A concrete cached candidate. -/
def c4Cached : ANode Nat :=
  ⟨⟨[1]⟩, str "test_result_node", [(str "code", 7), (str "cmd", 42)]⟩

/-- A concrete would-be result of running the wrapped function, with a
different id than the cached node. -/
def c4Fresh : ANode Nat :=
  ⟨⟨[2]⟩, str "test_result_node", [(str "code", 7), (str "cmd", 42)]⟩

/-- The index entries returned for the key argument's id. -/
def c4Entries : List IndexEntry :=
  [⟨⟨[1]⟩, str "test_result_node", str "code"⟩]

/-- Witness: with one matching candidate in the index, the wrapper
returns the cached node, not the freshly computed one. -/
theorem analysis_memoization_witness :
    collectFound (str "test_result_node") (str "code") [str "code", str "cmd"]
        [(str "code", 7), (str "cmd", 42)] (fun _ => c4Cached) c4Entries =
      .ok [c4Cached] ∧
    analysisWrap (str "test_result_node") (str "code") [str "code", str "cmd"]
        [(str "code", 7), (str "cmd", 42)] (fun _ => c4Cached) c4Entries c4Fresh =
      .ok c4Cached :=
  ⟨rfl, (analysis_memoization (str "test_result_node") (str "code")
    [str "code", str "cmd"] [(str "code", 7), (str "cmd", 42)]
    (fun _ => c4Cached) c4Entries).2.2.1 c4Cached c4Fresh rfl⟩
